import Mathlib

/-!
A verification development for the tick orchestrator and action-resolution
protocol of the `datachains_sim` network simulator (`src/network.rs`).

The core under verification is `Network`: its constructor, `tick`,
`handle_actions`, `validate`, the read-only statistics views, and the
per-round `TickStats` accumulator.  The collaborators that `network.rs`
consumes but does not define (`prefix.rs`, `section.rs`, `message.rs`,
`node.rs`, `stats.rs`) are explicitly out of the core's scope and are
modelled from the specification: prefixes become bit strings, and the
`Section` / `Message` surface becomes an abstract operations record `SOps`
together with the contract assumptions `SContracts` that the specification
imposes on any section implementation.
-/

set_option autoImplicit false

namespace DSim

/-- Modelled from the spec: a `Prefix` (from `prefix.rs`, which is not under
`src/`) is an immutable bit string identifying one contiguous segment of the
address space; the root constant is the empty string. -/
abbrev Pfx := List Bool

/-- An address of the address space: an infinite stream of bits. -/
abbrev Addr := Nat → Bool

/-- Modelled from the spec: the membership test of a `Prefix` against an
address — the address starts with exactly the bits of the key. -/
def pfxMatches (p : Pfx) (a : Addr) : Bool :=
  (List.range p.length).map a == p

/-- Modelled from the spec: non-strict ancestor test on bit strings —
`isAnc t p` holds when `t` is an initial segment of `p`. -/
def isAnc : Pfx → Pfx → Bool
  | [], _ => true
  | _ :: _, [] => false
  | x :: xs, y :: ys => (x == y) && isAnc xs ys

/-- Modelled from the spec: `p.is_descendant t` (from `prefix.rs`) — `p` is a
strict descendant of `t`, i.e. `t` is a proper initial segment of `p`. -/
def isDescendant (p t : Pfx) : Bool :=
  isAnc t p && decide (t.length < p.length)

/-- Modelled from the spec: `Prefix::split` yields exactly the two child
keys that exactly partition the parent segment. -/
def pfxSplit (p : Pfx) : Pfx × Pfx :=
  (p ++ [false], p ++ [true])

/-- The canonical address inside the segment of `p`: the bits of `p`
padded with `false`. -/
def extAddr (p : Pfx) : Addr :=
  fun i => p.getD i false

theorem pfxMatches_iff (p : Pfx) (a : Addr) :
    pfxMatches p a = true ↔ (List.range p.length).map a = p := by
  simp [pfxMatches]

theorem pfxMatches_nil (a : Addr) : pfxMatches [] a = true := by
  simp [pfxMatches]

theorem isAnc_iff (t p : Pfx) : isAnc t p = true ↔ t <+: p := by
  induction t generalizing p with
  | nil => simp [isAnc]
  | cons x xs ih =>
    cases p with
    | nil => simp [isAnc]
    | cons y ys =>
      simp [isAnc, ih, List.cons_prefix_cons]

theorem isDescendant_iff (p t : Pfx) :
    isDescendant p t = true ↔ t <+: p ∧ t ≠ p := by
  constructor
  · intro h
    simp only [isDescendant, Bool.and_eq_true, decide_eq_true_eq] at h
    refine ⟨(isAnc_iff t p).1 h.1, ?_⟩
    intro he
    subst he
    exact lt_irrefl _ h.2
  · rintro ⟨hanc, hne⟩
    simp only [isDescendant, Bool.and_eq_true, decide_eq_true_eq]
    refine ⟨(isAnc_iff t p).2 hanc, ?_⟩
    rcases Nat.lt_or_ge t.length p.length with h | h
    · exact h
    · exact absurd (hanc.eq_of_length (Nat.le_antisymm hanc.length_le h)) hne

theorem isDescendant_self_false (t : Pfx) : isDescendant t t = false := by
  rcases h : isDescendant t t with _ | _
  · rfl
  · rcases (isDescendant_iff t t).1 h with ⟨_, hne⟩
    exact absurd rfl hne

/-- Matching is antitone along the ancestor order: an initial segment of a
matching key also matches. -/
theorem pfxMatches_of_anc {p q : Pfx} {a : Addr} (hpq : p <+: q)
    (h : pfxMatches q a = true) : pfxMatches p a = true := by
  rw [pfxMatches_iff] at h ⊢
  rcases hpq with ⟨r, hr⟩
  have hlen : p.length ≤ q.length := by
    subst hr; simp
  have h1 : (List.range p.length).map a = ((List.range q.length).map a).take p.length := by
    rw [← List.map_take, List.take_range, Nat.min_eq_left hlen]
  rw [h1, h, ← hr, List.take_left']
  simp

/-- Two keys matching the same address are comparable: one is an initial
segment of the other. -/
theorem pfxMatches_comparable {p q : Pfx} {a : Addr}
    (hp : pfxMatches p a = true) (hq : pfxMatches q a = true) :
    p <+: q ∨ q <+: p := by
  rw [pfxMatches_iff] at hp hq
  rcases Nat.le_total p.length q.length with h | h
  · left
    have h1 : (List.range p.length).map a = ((List.range q.length).map a).take p.length := by
      rw [← List.map_take, List.take_range, Nat.min_eq_left h]
    rw [hp, hq] at h1
    exact h1 ▸ List.take_prefix p.length q
  · right
    have h1 : (List.range q.length).map a = ((List.range p.length).map a).take q.length := by
      rw [← List.map_take, List.take_range, Nat.min_eq_left h]
    rw [hp, hq] at h1
    exact h1 ▸ List.take_prefix q.length p

/-- Every key matches its canonical address. -/
theorem pfxMatches_extAddr (p : Pfx) : pfxMatches p (extAddr p) = true := by
  rw [pfxMatches_iff]
  apply List.ext_getElem
  · simp
  · intro i h1 h2
    simp only [List.getElem_map, List.getElem_range, extAddr]
    exact List.getD_eq_getElem p false h2

/-- Matching a one-bit extension: the address matches the parent and its
next bit is the extension bit. -/
theorem pfxMatches_append_singleton (p : Pfx) (b : Bool) (a : Addr) :
    pfxMatches (p ++ [b]) a = true ↔ pfxMatches p a = true ∧ a p.length = b := by
  rw [pfxMatches_iff, pfxMatches_iff]
  have hr : List.range (p ++ [b]).length = List.range p.length ++ [p.length] := by
    simp [List.range_succ]
  rw [hr, List.map_append]
  constructor
  · intro h
    have := List.append_inj' h (by simp)
    simp only [List.map_cons, List.map_nil, List.cons.injEq, and_true] at this
    exact ⟨this.1, this.2⟩
  · rintro ⟨h1, h2⟩
    simp [h1, h2]

/-- The slice of `Params` (from `params.rs`, not under `src/`) that
`network.rs` reads: `validate` compares section sizes against
`params.max_section_size`. -/
structure Params where
  max_section_size : Nat
deriving DecidableEq

/-- `Action` from `message.rs` (not under `src/`), modelled from the spec: a
tagged variant produced by a section's evaluation.  `Reject` carries an
identifier, `Merge` and `Split` carry a target/source key, `Send` carries a
message of the abstract message type `M`. -/
inductive Act (M : Type) where
  | Reject (id : Nat)
  | Merge (target : Pfx)
  | Split (source : Pfx)
  | Send (msg : M)
deriving DecidableEq

/-- `TickStats` from `src/network.rs`: the ephemeral per-round counters. -/
structure TickStats where
  merges : Nat
  splits : Nat
  relocations : Nat
  rejections : Nat
deriving DecidableEq

/-- `TickStats::new`. -/
def TickStats.new : TickStats :=
  ⟨0, 0, 0, 0⟩

/-- `impl AddAssign for TickStats` from `src/network.rs`: componentwise
addition. -/
def TickStats.add (a b : TickStats) : TickStats :=
  ⟨a.merges + b.merges, a.splits + b.splits,
   a.relocations + b.relocations, a.rejections + b.rejections⟩

/-- The whole-tick accumulation `stats += self.handle_actions(..)` performed
by `Network::tick`, folded over the per-round results in round order. -/
def TickStats.sumL (l : List TickStats) : TickStats :=
  l.foldl TickStats.add TickStats.new

/-- One `record` call on the durable statistics sink (`stats.rs`, not under
`src/`), modelled from the spec: the sink receives one
`record(iteration, total_nodes, section_count, merges, splits, relocations,
rejections)` call per tick. -/
structure StatsRecord where
  iteration : Nat
  total_nodes : Nat
  num_sections : Nat
  merges : Nat
  splits : Nat
  relocations : Nat
  rejections : Nat
deriving DecidableEq

/-- Modelled from the spec: the capability surface of the external
collaborators that `network.rs` consumes — `Section` (from `section.rs`),
`Message` (from `message.rs`) and `node::count_matching_adults` (from
`node.rs`), none of which is under `src/`.  `S` is the opaque section state,
`M` the opaque message type.  `evalSec` is `Section::tick` (the per-round
evaluation): it mutates the section and returns the emitted actions. -/
structure SOps (S M : Type) where
  newSec : Pfx → S
  pfxOf : S → Pfx
  prepareSec : S → S
  evalSec : Params → S → S × List (Act M)
  mergeSec : Params → S → S → S
  splitSec : Params → S → S × S
  receive : M → S → S
  nodesLen : S → Nat
  nodeAges : S → List Nat
  isComplete : Params → S → Bool
  incomingLen : S → Nat
  outgoingLen : S → Nat
  countAdults : Params → Pfx → S → Nat
  msgTarget : M → Addr
  isRelocateCommit : M → Bool

/-- Modelled from the spec: the contracts the core assumes of any `Section`
collaborator — each operation reports/preserves the section's own recorded
key, `Section::new(p)` records `p`, and `Section::split` produces exactly
the two one-bit children of the consumed section's key. -/
structure SContracts {S M : Type} (ops : SOps S M) : Prop where
  new_pfx : ∀ p, ops.pfxOf (ops.newSec p) = p
  prepare_pfx : ∀ s, ops.pfxOf (ops.prepareSec s) = ops.pfxOf s
  eval_pfx : ∀ ps s, ops.pfxOf (ops.evalSec ps s).1 = ops.pfxOf s
  merge_pfx : ∀ ps s t, ops.pfxOf (ops.mergeSec ps s t) = ops.pfxOf s
  split_pfx : ∀ ps s, ops.pfxOf (ops.splitSec ps s).1 = ops.pfxOf s ++ [false]
    ∧ ops.pfxOf (ops.splitSec ps s).2 = ops.pfxOf s ++ [true]
  receive_pfx : ∀ m s, ops.pfxOf (ops.receive m s) = ops.pfxOf s

/-- The partition map `sections: HashMap<Prefix, Section>` of
`src/network.rs`, modelled as an association list with unique keys (the
key-uniqueness that the hash map enforces structurally is carried as an
invariant). -/
abbrev SMap (S : Type) := List (Pfx × S)

/-- The keys of the partition map. -/
def Keys {S : Type} (secs : SMap S) : List Pfx :=
  secs.map Prod.fst

/-- `HashMap::get`: the value at a key (first occurrence). -/
def alLookup {S : Type} (k : Pfx) : SMap S → Option S
  | [] => none
  | e :: rest => if e.1 = k then some e.2 else alLookup k rest

/-- `HashMap::remove`: drop the entry at a key (first occurrence). -/
def alRemove {S : Type} (k : Pfx) : SMap S → SMap S
  | [] => []
  | e :: rest => if e.1 = k then rest else e :: alRemove k rest

/-- In-place mutation of the value at a key (first occurrence), as through
the `&mut` reference returned by the `entry` API. -/
def alUpdate {S : Type} (k : Pfx) (f : S → S) : SMap S → SMap S
  | [] => []
  | e :: rest => if e.1 = k then (e.1, f e.2) :: rest else e :: alUpdate k f rest

/-- `self.sections.values_mut().find(|s| s.prefix().matches(target))`
followed by `section.receive(message)`: deliver `m` to the first section
whose own recorded key matches the message's target address; `none` when no
section matches. -/
def sendTo {S M : Type} (ops : SOps S M) (m : M) : SMap S → Option (SMap S)
  | [] => none
  | e :: rest =>
    if pfxMatches (ops.pfxOf e.2) (ops.msgTarget m) then
      some ((e.1, ops.receive m e.2) :: rest)
    else
      (sendTo ops m rest).map (fun rest1 => e :: rest1)

/-- One arm of the `match action` in `Network::handle_actions`
(`src/network.rs` lines 111–206), acting on the current map and the
accumulated round counters.  A Rust `panic!` / failed `assert!` becomes the
`Except.error` outcome. -/
def handleOne {S M : Type} (ops : SOps S M) (ps : Params)
    (st : SMap S × TickStats) : Act M → Except String (SMap S × TickStats)
  | Act.Reject _ =>
    Except.ok (st.1, { st.2 with rejections := st.2.rejections + 1 })
  | Act.Merge target =>
    let srcKeys := (Keys st.1).filter (fun p => isDescendant p target)
    if srcKeys.isEmpty then
      -- benign race: the pre-merge sections are already gone
      Except.ok st
    else
      let sources := srcKeys.filterMap (fun k => alLookup k st.1)
      let secs1 := srcKeys.foldl (fun m k => alRemove k m) st.1
      let stats1 := { st.2 with merges := st.2.merges + 1 }
      match alLookup target secs1 with
      | some _ =>
        Except.ok (alUpdate target
          (fun s => sources.foldl (fun acc src => ops.mergeSec ps acc src) s) secs1, stats1)
      | none =>
        Except.ok (secs1 ++
          [(target, sources.foldl (fun acc src => ops.mergeSec ps acc src) (ops.newSec target))],
          stats1)
  | Act.Split source =>
    let stats1 := { st.2 with splits := st.2.splits + 1 }
    match alLookup source st.1 with
    | none =>
      -- benign race: the pre-split section was already absorbed by a merge
      Except.ok (st.1, stats1)
    | some sec =>
      let secs1 := alRemove source st.1
      let t0 := (ops.splitSec ps sec).1
      let t1 := (ops.splitSec ps sec).2
      let p0 := ops.pfxOf t0
      let p1 := ops.pfxOf t1
      if (alLookup p0 secs1).isSome then
        Except.error "section with first child key already exists"
      else if (alLookup p1 (secs1 ++ [(p0, t0)])).isSome then
        Except.error "section with second child key already exists"
      else
        Except.ok (secs1 ++ [(p0, t0)] ++ [(p1, t1)], stats1)
  | Act.Send m =>
    match sendTo ops m st.1 with
    | none => Except.error "no section matching target found"
    | some secs1 =>
      let stats1 :=
        if ops.isRelocateCommit m then
          { st.2 with relocations := st.2.relocations + 1 }
        else st.2
      Except.ok (secs1, stats1)

/-- The `for action in actions.drain(..)` loop of `Network::handle_actions`. -/
def runActs {S M : Type} (ops : SOps S M) (ps : Params) :
    List (Act M) → SMap S × TickStats → Except String (SMap S × TickStats)
  | [], st => Except.ok st
  | a :: rest, st =>
    match handleOne ops ps st a with
    | Except.error e => Except.error e
    | Except.ok st1 => runActs ops ps rest st1

/-- `Network::handle_actions`: consume one round's action list against the
map and return the mutated map together with this round's fresh counters. -/
def handleActions {S M : Type} (ops : SOps S M) (ps : Params)
    (acts : List (Act M)) (secs : SMap S) : Except String (SMap S × TickStats) :=
  runActs ops ps acts (secs, TickStats.new)

/-- One evaluation sweep `for section in self.sections.values_mut() {
actions.extend(section.tick(&self.params)) }`: every section is evaluated
once, in map order, and the emitted action lists are concatenated. -/
def evalAll {S M : Type} (ops : SOps S M) (ps : Params) :
    SMap S → SMap S × List (Act M)
  | [] => ([], [])
  | e :: rest =>
    let r0 := ops.evalSec ps e.2
    let r1 := evalAll ops ps rest
    ((e.1, r0.1) :: r1.1, r0.2 ++ r1.2)

/-- The fixpoint `loop` of `Network::tick`, with an explicit round budget
(`fuel`); exhausting the budget is reported as an error, never as silent
convergence.  Returns the settled map and the list of per-round counters
returned by each `handle_actions` call, in round order. -/
def fixLoop {S M : Type} (ops : SOps S M) (ps : Params) :
    Nat → SMap S → Except String (SMap S × List TickStats)
  | 0, _ => Except.error "round budget exhausted"
  | fuel + 1, secs =>
    let r := evalAll ops ps secs
    if r.2.isEmpty then
      Except.ok (r.1, [])
    else
      match handleActions ops ps r.2 r.1 with
      | Except.error e => Except.error e
      | Except.ok (secs1, st) =>
        match fixLoop ops ps fuel secs1 with
        | Except.error e => Except.error e
        | Except.ok (secs2, sts) => Except.ok (secs2, st :: sts)

/-- The simulated network: `struct Network` of `src/network.rs`.  The
durable `Stats` sink is modelled as the list of `record` calls it has
received. -/
structure Network (S : Type) where
  params : Params
  stats : List StatsRecord
  sections : SMap S

/-- `Network::new(params)`: one entry at the root key. -/
def netNew {S M : Type} (ops : SOps S M) (ps : Params) : Network S :=
  { params := ps, stats := [], sections := [([], ops.newSec [])] }

/-- The prepare phase, fixpoint phase and record phase of `Network::tick`
(`src/network.rs` lines 31–62): prepare every section, run the round loop to
convergence, then make the single `record` call on the statistics sink. -/
def tickCore {S M : Type} (ops : SOps S M) (fuel : Nat) (iteration : Nat)
    (net : Network S) : Except String (Network S) :=
  let prepared := net.sections.map (fun e => (e.1, ops.prepareSec e.2))
  match fixLoop ops net.params fuel prepared with
  | Except.error e => Except.error e
  | Except.ok (secs, rounds) =>
    let st := TickStats.sumL rounds
    Except.ok { net with
      sections := secs,
      stats := net.stats ++
        [⟨iteration, (secs.map (fun e => ops.nodesLen e.2)).sum, secs.length,
          st.merges, st.splits, st.relocations, st.rejections⟩] }

/-- The capacity-warning diagnostic `validate` logs for one oversized
section: its key, its node count, and the projected adult counts for the
two one-bit children of its key. -/
structure Diag where
  key : Pfx
  numNodes : Nat
  adults0 : Nat
  adults1 : Nat
deriving DecidableEq

/-- The body of the `for section in self.sections.values()` loop of
`Network::validate` for one section: the non-fatal oversize diagnostic,
then the two fatal relocation-cache checks. -/
def validateSec {S M : Type} (ops : SOps S M) (ps : Params) (e : Pfx × S) :
    Except String (List Diag) :=
  let s := e.2
  let ds :=
    if ps.max_section_size < ops.nodesLen s then
      [⟨ops.pfxOf s, ops.nodesLen s,
        ops.countAdults ps (pfxSplit (ops.pfxOf s)).1 s,
        ops.countAdults ps (pfxSplit (ops.pfxOf s)).2 s⟩]
    else []
  if 0 < ops.incomingLen s then
    Except.error "incoming relocation cache not cleared"
  else if 0 < ops.outgoingLen s then
    Except.error "outgoing relocation cache not cleared"
  else
    Except.ok ds

/-- `Network::validate` (`src/network.rs` lines 212–254): scan every
section; collect the non-fatal oversize diagnostics; a non-empty incoming
or outgoing relocation cache aborts the run. -/
def validate {S M : Type} (ops : SOps S M) (ps : Params) :
    SMap S → Except String (List Diag)
  | [] => Except.ok []
  | e :: rest =>
    match validateSec ops ps e with
    | Except.error msg => Except.error msg
    | Except.ok ds =>
      match validate ops ps rest with
      | Except.error msg => Except.error msg
      | Except.ok ds1 => Except.ok (ds ++ ds1)

/-- `Network::tick`: prepare / fixpoint / record, then the validate phase. -/
def tick {S M : Type} (ops : SOps S M) (fuel : Nat) (iteration : Nat)
    (net : Network S) : Except String (Network S) :=
  match tickCore ops fuel iteration net with
  | Except.error e => Except.error e
  | Except.ok net1 =>
    match validate ops net1.params net1.sections with
    | Except.error e => Except.error e
    | Except.ok _ => Except.ok net1

/-- The networks reachable from `Network::new(params)` by completed `tick`
calls. -/
inductive Reachable {S M : Type} (ops : SOps S M) (ps : Params) : Network S → Prop
  | base : Reachable ops ps (netNew ops ps)
  | step {net net1 : Network S} (fuel iteration : Nat) :
      Reachable ops ps net → tick ops fuel iteration net = Except.ok net1 →
      Reachable ops ps net1

/-- `Distribution` (from `stats.rs`, not under `src/`), modelled from the
spec as a reporting-only view of the sampled values. -/
structure Distribution where
  values : List Nat
deriving DecidableEq

/-- `Aggregator` (from `stats.rs`, not under `src/`), modelled from the
spec as a reporting-only view of the sampled values. -/
structure Aggregator where
  values : List Nat
deriving DecidableEq

/-- `Network::stats` — a `&self` accessor, modelled state-passing: the
returned second component is the network after the call. -/
def statsView {S : Type} (net : Network S) : List StatsRecord × Network S :=
  (net.stats, net)

/-- `Network::num_complete_sections`. -/
def numCompleteSections {S M : Type} (ops : SOps S M) (net : Network S) :
    Nat × Network S :=
  ((net.sections.filter (fun e => ops.isComplete net.params e.2)).length, net)

/-- `Network::age_distribution`. -/
def ageDistribution {S M : Type} (ops : SOps S M) (net : Network S) :
    Distribution × Network S :=
  (⟨(net.sections.map (fun e => ops.nodeAges e.2)).flatten⟩, net)

/-- `Network::age_aggregator`. -/
def ageAggregator {S M : Type} (ops : SOps S M) (net : Network S) :
    Aggregator × Network S :=
  (⟨(net.sections.map (fun e => ops.nodeAges e.2)).flatten⟩, net)

/-- `Network::section_size_aggregator`. -/
def sectionSizeAggregator {S M : Type} (ops : SOps S M) (net : Network S) :
    Aggregator × Network S :=
  (⟨net.sections.map (fun e => ops.nodesLen e.2)⟩, net)

/-- `Network::prefix_len_aggregator`. -/
def keyLenAggregator {S : Type} (net : Network S) : Aggregator × Network S :=
  (⟨(Keys net.sections).map List.length⟩, net)

/-- `Network::validate` called on the whole network, as a `&self` method:
on success it returns the collected diagnostics and the post-call network. -/
def runValidate {S M : Type} (ops : SOps S M) (net : Network S) :
    Except String (List Diag × Network S) :=
  match validate ops net.params net.sections with
  | Except.error e => Except.error e
  | Except.ok ds => Except.ok (ds, net)

/-- The key set is an exact partition of the address space: every address
is matched by exactly one key. -/
def ExactCover (ks : List Pfx) : Prop :=
  ∀ a : Addr, ∃ p, (p ∈ ks ∧ pfxMatches p a = true) ∧
    ∀ q, q ∈ ks → pfxMatches q a = true → q = p

/-- The map key of each entry equals that section's own recorded key. -/
def KeyInv {S M : Type} (ops : SOps S M) (secs : SMap S) : Prop :=
  ∀ e, e ∈ secs → ops.pfxOf e.2 = e.1

/-- The partition-map invariant: unique keys, exact partition of the
address space, and agreement between map keys and recorded section keys. -/
def Inv {S M : Type} (ops : SOps S M) (secs : SMap S) : Prop :=
  (Keys secs).Nodup ∧ ExactCover (Keys secs) ∧ KeyInv ops secs

theorem mem_Keys {S : Type} {p : Pfx} {secs : SMap S} :
    p ∈ Keys secs ↔ ∃ s, (p, s) ∈ secs := by
  constructor
  · intro h
    rcases List.mem_map.1 h with ⟨e, he, hp⟩
    exact ⟨e.2, by rw [← hp]; exact he⟩
  · rintro ⟨s, hs⟩
    exact List.mem_map_of_mem Prod.fst hs

theorem fst_mem_Keys {S : Type} {e : Pfx × S} {secs : SMap S}
    (h : e ∈ secs) : e.1 ∈ Keys secs :=
  List.mem_map_of_mem Prod.fst h

theorem Keys_append {S : Type} (a b : SMap S) :
    Keys (a ++ b) = Keys a ++ Keys b :=
  List.map_append Prod.fst a b

theorem keys_filter {S : Type} (g : Pfx → Bool) (secs : SMap S) :
    Keys (secs.filter (fun e => g e.1)) = (Keys secs).filter g := by
  induction secs with
  | nil => rfl
  | cons e rest ih =>
    by_cases h : g e.1 = true
    · simp [Keys, List.filter_cons, h] at ih ⊢
      exact ih
    · simp only [Bool.not_eq_true] at h
      simp [Keys, List.filter_cons, h] at ih ⊢
      exact ih

theorem alLookup_mem {S : Type} {k : Pfx} {s : S} {secs : SMap S}
    (h : alLookup k secs = some s) : (k, s) ∈ secs := by
  induction secs with
  | nil => simp [alLookup] at h
  | cons e rest ih =>
    obtain ⟨p1, s1⟩ := e
    by_cases he : p1 = k
    · simp only [alLookup, if_pos he, Option.some.injEq] at h
      subst he
      subst h
      exact List.mem_cons_self _ _
    · simp only [alLookup, if_neg he] at h
      exact List.mem_cons_of_mem _ (ih h)

theorem alLookup_eq_none {S : Type} {k : Pfx} {secs : SMap S} :
    alLookup k secs = none ↔ k ∉ Keys secs := by
  induction secs with
  | nil => simp [alLookup, Keys]
  | cons e rest ih =>
    by_cases he : e.1 = k
    · simp [alLookup, if_pos he, Keys, he]
    · rw [alLookup, if_neg he, ih]
      simp only [Keys, List.map_cons, List.mem_cons, not_or]
      constructor
      · intro h
        exact ⟨fun hk => he hk.symm, h⟩
      · intro h
        exact h.2

theorem mem_alLookup {S : Type} {k : Pfx} {s : S} {secs : SMap S}
    (hnd : (Keys secs).Nodup) (h : (k, s) ∈ secs) : alLookup k secs = some s := by
  induction secs with
  | nil => simp at h
  | cons e rest ih =>
    simp only [Keys, List.map_cons, List.nodup_cons] at hnd
    rcases List.mem_cons.1 h with he | hm
    · subst he
      simp [alLookup]
    · have hk : e.1 ≠ k := by
        intro hek
        exact hnd.1 (hek ▸ fst_mem_Keys hm)
      simp only [alLookup, if_neg hk]
      exact ih hnd.2 hm

theorem alLookup_isSome_iff {S : Type} {k : Pfx} {secs : SMap S} :
    (alLookup k secs).isSome = true ↔ k ∈ Keys secs := by
  rcases h : alLookup k secs with _ | s
  · simp [alLookup_eq_none.1 h]
  · simp only [Option.isSome_some, true_iff]
    exact fst_mem_Keys (alLookup_mem h)

theorem alRemove_eq_filter {S : Type} (k : Pfx) {secs : SMap S}
    (hnd : (Keys secs).Nodup) :
    alRemove k secs = secs.filter (fun e => decide (e.1 ≠ k)) := by
  induction secs with
  | nil => rfl
  | cons e rest ih =>
    simp only [Keys, List.map_cons, List.nodup_cons] at hnd
    rw [List.filter_cons]
    by_cases he : e.1 = k
    · have hd : (decide (e.1 ≠ k)) = false := by simp [he]
      rw [alRemove, if_pos he, hd]
      simp only [Bool.false_eq_true, if_false]
      rw [List.filter_eq_self.2]
      intro a ha
      simp only [decide_eq_true_eq]
      intro hak
      exact hnd.1 ((he ▸ hak : a.1 = e.1) ▸ fst_mem_Keys ha)
    · have hd : (decide (e.1 ≠ k)) = true := by simp [he]
      rw [alRemove, if_neg he, hd]
      simp only [if_true]
      rw [ih hnd.2]

theorem keys_alRemove {S : Type} (k : Pfx) {secs : SMap S}
    (hnd : (Keys secs).Nodup) :
    Keys (alRemove k secs) = (Keys secs).filter (fun p => decide (p ≠ k)) := by
  rw [alRemove_eq_filter k hnd]
  exact keys_filter (fun p => decide (p ≠ k)) secs

theorem nodup_keys_alRemove {S : Type} (k : Pfx) {secs : SMap S}
    (hnd : (Keys secs).Nodup) : (Keys (alRemove k secs)).Nodup := by
  rw [keys_alRemove k hnd]
  exact hnd.filter _

theorem foldl_alRemove {S : Type} (ks : List Pfx) (secs : SMap S)
    (hnd : (Keys secs).Nodup) :
    ks.foldl (fun m k => alRemove k m) secs =
      secs.filter (fun e => !(decide (e.1 ∈ ks))) := by
  induction ks generalizing secs with
  | nil => simp
  | cons k ks ih =>
    rw [List.foldl_cons, alRemove_eq_filter k hnd]
    have hnd1 : (Keys (secs.filter (fun e => decide (e.1 ≠ k)))).Nodup := by
      have h1 : Keys (secs.filter (fun e => decide (e.1 ≠ k))) =
          (Keys secs).filter (fun p => decide (p ≠ k)) :=
        keys_filter (fun p => decide (p ≠ k)) secs
      rw [h1]
      exact hnd.filter _
    rw [ih _ hnd1, List.filter_filter]
    apply List.filter_congr
    intro e _
    by_cases h1 : e.1 = k
    · simp [h1, List.mem_cons]
    · simp [h1, List.mem_cons]

theorem alUpdate_keys {S : Type} (k : Pfx) (f : S → S) (secs : SMap S) :
    Keys (alUpdate k f secs) = Keys secs := by
  induction secs with
  | nil => rfl
  | cons e rest ih =>
    by_cases he : e.1 = k
    · simp [alUpdate, if_pos he, Keys]
    · simp only [alUpdate, if_neg he, Keys, List.map_cons] at ih ⊢
      rw [ih]

theorem alUpdate_congr {S : Type} {k : Pfx} {s : S} {secs : SMap S}
    (hnd : (Keys secs).Nodup) (hl : alLookup k secs = some s)
    (f g : S → S) (hfg : f s = g s) :
    alUpdate k f secs = alUpdate k g secs := by
  induction secs with
  | nil => rfl
  | cons e rest ih =>
    simp only [Keys, List.map_cons, List.nodup_cons] at hnd
    by_cases he : e.1 = k
    · simp only [alLookup, if_pos he, Option.some.injEq] at hl
      simp [alUpdate, if_pos he, hl, hfg]
    · simp only [alLookup, if_neg he] at hl
      simp only [alUpdate, if_neg he, List.cons.injEq, true_and]
      exact ih hnd.2 hl

theorem alUpdate_mem {S : Type} {k : Pfx} {f : S → S} {secs : SMap S} {e : Pfx × S}
    (h : e ∈ alUpdate k f secs) :
    e ∈ secs ∨ ∃ s, (k, s) ∈ secs ∧ e = (k, f s) := by
  induction secs with
  | nil => simp [alUpdate] at h
  | cons e0 rest ih =>
    by_cases he : e0.1 = k
    · rw [alUpdate, if_pos he] at h
      rcases List.mem_cons.1 h with h1 | h1
      · right
        exact ⟨e0.2, by simp [← he], by rw [h1, he]⟩
      · left
        exact List.mem_cons_of_mem e0 h1
    · rw [alUpdate, if_neg he] at h
      rcases List.mem_cons.1 h with h1 | h1
      · left
        exact h1 ▸ List.mem_cons_self e0 rest
      · rcases ih h1 with h2 | ⟨s, hs, he2⟩
        · exact Or.inl (List.mem_cons_of_mem e0 h2)
        · exact Or.inr ⟨s, List.mem_cons_of_mem e0 hs, he2⟩

theorem alLookup_append {S : Type} (k : Pfx) (a b : SMap S) :
    alLookup k (a ++ b) =
      match alLookup k a with
      | some s => some s
      | none => alLookup k b := by
  induction a with
  | nil => simp [alLookup]
  | cons e rest ih =>
    by_cases he : e.1 = k
    · simp [alLookup, if_pos he]
    · simp only [List.cons_append, alLookup, if_neg he]
      exact ih

theorem alLookup_filter {S : Type} {k : Pfx} {f : Pfx × S → Bool} {secs : SMap S}
    (h : ∀ e, e ∈ secs → e.1 = k → f e = true) :
    alLookup k (secs.filter f) = alLookup k secs := by
  induction secs with
  | nil => rfl
  | cons e rest ih =>
    have hih := ih (fun e1 h1 => h e1 (List.mem_cons_of_mem e h1))
    by_cases he : e.1 = k
    · have hf := h e (List.mem_cons_self e rest) he
      rw [List.filter_cons, if_pos hf, alLookup, if_pos he, alLookup, if_pos he]
    · by_cases hf : f e = true
      · rw [List.filter_cons, if_pos hf, alLookup, if_neg he, alLookup, if_neg he, hih]
      · rw [List.filter_cons, if_neg hf, hih, alLookup, if_neg he]

theorem filterMap_alLookup_cons {S : Type} (e : Pfx × S) (rest : SMap S) {ks : List Pfx}
    (h : ∀ k, k ∈ ks → k ≠ e.1) :
    ks.filterMap (fun k => alLookup k (e :: rest)) =
      ks.filterMap (fun k => alLookup k rest) := by
  induction ks with
  | nil => rfl
  | cons k ks ih =>
    have hk : e.1 ≠ k := fun hek => h k (List.mem_cons_self k ks) hek.symm
    have h1 : alLookup k (e :: rest) = alLookup k rest := by
      rw [alLookup, if_neg hk]
    rw [List.filterMap_cons, List.filterMap_cons, h1,
      ih (fun k1 hk1 => h k1 (List.mem_cons_of_mem k hk1))]

/-- Under key uniqueness, collecting the sections at the keys selected by a
key predicate gives exactly the values of the entries selected by the same
predicate, in map order. -/
theorem filterMap_alLookup_filter {S : Type} (g : Pfx → Bool) {secs : SMap S}
    (hnd : (Keys secs).Nodup) :
    ((Keys secs).filter g).filterMap (fun k => alLookup k secs) =
      (secs.filter (fun e => g e.1)).map Prod.snd := by
  induction secs with
  | nil => rfl
  | cons e rest ih =>
    simp only [Keys, List.map_cons, List.nodup_cons] at hnd
    have hcongr : ((List.map Prod.fst rest).filter g).filterMap
        (fun k => alLookup k (e :: rest)) =
        ((List.map Prod.fst rest).filter g).filterMap (fun k => alLookup k rest) := by
      apply filterMap_alLookup_cons
      intro k hk hke
      exact hnd.1 (hke ▸ List.mem_of_mem_filter hk)
    have ih2 := ih hnd.2
    simp only [Keys] at ih2
    simp only [Keys, List.map_cons, List.filter_cons]
    by_cases hg : g e.1 = true
    · rw [if_pos hg, if_pos hg, List.filterMap_cons, List.map_cons]
      have hl : alLookup e.1 (e :: rest) = some e.2 := by
        rw [alLookup, if_pos rfl]
      rw [hl, hcongr, ih2]
    · rw [if_neg hg, if_neg hg, hcongr, ih2]

theorem sendTo_none_iff {S M : Type} (ops : SOps S M) (m : M) (secs : SMap S) :
    sendTo ops m secs = none ↔
      ∀ e, e ∈ secs → pfxMatches (ops.pfxOf e.2) (ops.msgTarget m) = false := by
  induction secs with
  | nil => simp [sendTo]
  | cons e rest ih =>
    by_cases hm : pfxMatches (ops.pfxOf e.2) (ops.msgTarget m) = true
    · simp [sendTo, hm]
    · simp only [Bool.not_eq_true] at hm
      simp [sendTo, hm, ih, Option.map_eq_none']

/-- Delivery decomposition: a successful `sendTo` splits the map at the
first entry whose recorded key matches the target, replaces that section by
its `receive` image, and keeps everything else in place. -/
theorem sendTo_some {S M : Type} {ops : SOps S M} {m : M} {secs secs1 : SMap S}
    (h : sendTo ops m secs = some secs1) :
    ∃ l e r, secs = l ++ e :: r ∧
      (∀ e1, e1 ∈ l → pfxMatches (ops.pfxOf e1.2) (ops.msgTarget m) = false) ∧
      pfxMatches (ops.pfxOf e.2) (ops.msgTarget m) = true ∧
      secs1 = l ++ (e.1, ops.receive m e.2) :: r := by
  induction secs generalizing secs1 with
  | nil => simp [sendTo] at h
  | cons e rest ih =>
    by_cases hm : pfxMatches (ops.pfxOf e.2) (ops.msgTarget m) = true
    · rw [sendTo, if_pos hm] at h
      refine ⟨[], e, rest, rfl, by simp, hm, ?_⟩
      rw [List.nil_append]
      exact (Option.some.injEq _ _ ▸ h).symm
    · rw [sendTo, if_neg hm] at h
      rcases Option.map_eq_some'.1 h with ⟨rest1, hr, hmap⟩
      rcases ih hr with ⟨l, e1, r, h1, h2, h3, h4⟩
      refine ⟨e :: l, e1, r, by rw [List.cons_append, ← h1], ?_, h3, ?_⟩
      · intro e2 he2
        rcases List.mem_cons.1 he2 with rfl | he2
        · exact Bool.not_eq_true _ ▸ hm
        · exact h2 e2 he2
      · rw [← hmap, h4, List.cons_append]

theorem ExactCover.unique {ks : List Pfx} (h : ExactCover ks) {p q : Pfx} {a : Addr}
    (hp : p ∈ ks) (hq : q ∈ ks) (hpa : pfxMatches p a = true)
    (hqa : pfxMatches q a = true) : p = q := by
  rcases h a with ⟨r, _, hr⟩
  rw [hr p hp hpa, hr q hq hqa]

/-- In an exact partition no key is a proper initial segment of another. -/
theorem ExactCover.anc_eq {ks : List Pfx} (h : ExactCover ks) {p q : Pfx}
    (hp : p ∈ ks) (hq : q ∈ ks) (hpq : p <+: q) : p = q :=
  h.unique hp hq (pfxMatches_of_anc hpq (pfxMatches_extAddr q)) (pfxMatches_extAddr q)

/-- In an exact partition that contains a strict descendant of `t`, no key
at all is an initial segment of `t`. -/
theorem ExactCover.no_anc_of_desc {ks : List Pfx} {t d : Pfx} (h : ExactCover ks)
    (hd : d ∈ ks) (hdt : t <+: d) (hne : t ≠ d) :
    ∀ q, q ∈ ks → ¬ q <+: t := by
  intro q hq hqt
  have h1 : q = d := h.anc_eq hq hd (hqt.trans hdt)
  subst h1
  exact hne (hdt.eq_of_length (Nat.le_antisymm hdt.length_le hqt.length_le))

/-- Merging preserves exactness: replacing all strict descendants of `t`
(of which there is at least one) by `t` itself again partitions the space. -/
theorem ExactCover.mergeStep {ks ks1 : List Pfx} {t d : Pfx}
    (h : ExactCover ks) (hd : d ∈ ks) (hdt : t <+: d) (hne : t ≠ d)
    (hmem : ∀ p, p ∈ ks1 ↔ (p ∈ ks ∧ ¬(t <+: p ∧ t ≠ p)) ∨ p = t) :
    ExactCover ks1 := by
  have hanc := h.no_anc_of_desc hd hdt hne
  intro a
  by_cases hta : pfxMatches t a = true
  · refine ⟨t, ⟨(hmem t).2 (Or.inr rfl), hta⟩, ?_⟩
    intro q hq hqa
    rcases (hmem q).1 hq with ⟨hqks, hnd⟩ | h2
    · rcases pfxMatches_comparable hqa hta with hqt | htq
      · exact absurd hqt (hanc q hqks)
      · by_cases hqt : q = t
        · exact hqt
        · exact absurd ⟨htq, Ne.symm hqt⟩ hnd
    · exact h2
  · rcases h a with ⟨p, ⟨hpks, hpa⟩, hup⟩
    have hpnd : ¬(t <+: p ∧ t ≠ p) := by
      rintro ⟨htp, -⟩
      exact hta (pfxMatches_of_anc htp hpa)
    refine ⟨p, ⟨(hmem p).2 (Or.inl ⟨hpks, hpnd⟩), hpa⟩, ?_⟩
    intro q hq hqa
    rcases (hmem q).1 hq with ⟨hqks, -⟩ | h2
    · exact hup q hqks hqa
    · subst h2
      exact absurd hqa hta

/-- Splitting preserves exactness: replacing a key by its two one-bit
children again partitions the space. -/
theorem ExactCover.splitStep {ks ks1 : List Pfx} {s : Pfx}
    (h : ExactCover ks) (hs : s ∈ ks)
    (hmem : ∀ p, p ∈ ks1 ↔ (p ∈ ks ∧ p ≠ s) ∨ p = s ++ [false] ∨ p = s ++ [true]) :
    ExactCover ks1 := by
  intro a
  by_cases hsa : pfxMatches s a = true
  · have hchild : s ++ [a s.length] ∈ ks1 := by
      cases hb : a s.length
      · exact (hmem _).2 (Or.inr (Or.inl rfl))
      · exact (hmem _).2 (Or.inr (Or.inr rfl))
    refine ⟨s ++ [a s.length], ⟨hchild,
      (pfxMatches_append_singleton s _ a).2 ⟨hsa, rfl⟩⟩, ?_⟩
    intro q hq hqa
    rcases (hmem q).1 hq with ⟨hqks, hqs⟩ | h2
    · exact absurd (h.unique hqks hs hqa hsa) hqs
    · rcases h2 with rfl | rfl
      · rcases (pfxMatches_append_singleton s false a).1 hqa with ⟨-, hb⟩
        rw [← hb]
      · rcases (pfxMatches_append_singleton s true a).1 hqa with ⟨-, hb⟩
        rw [← hb]
  · rcases h a with ⟨p, ⟨hpks, hpa⟩, hup⟩
    have hps : p ≠ s := fun h1 => hsa (h1 ▸ hpa)
    refine ⟨p, ⟨(hmem p).2 (Or.inl ⟨hpks, hps⟩), hpa⟩, ?_⟩
    intro q hq hqa
    rcases (hmem q).1 hq with ⟨hqks, -⟩ | h2
    · exact hup q hqks hqa
    · rcases h2 with rfl | rfl <;>
        exact absurd (pfxMatches_of_anc (List.prefix_append s _) hqa) hsa

theorem ne_append_singleton (s : Pfx) (b : Bool) : s ≠ s ++ [b] := by
  intro h
  have h1 := congrArg List.length h
  simp at h1

theorem children_ne (s : Pfx) : s ++ [false] ≠ s ++ [true] := by
  intro h
  have h1 := List.append_inj_right h rfl
  simp at h1

/-- Folding `Section::merge` over any list of sources preserves the
accumulating section's recorded key. -/
theorem pfxOf_foldl_merge {S M : Type} {ops : SOps S M} (hc : SContracts ops)
    (ps : Params) (srcs : List S) (base : S) :
    ops.pfxOf (srcs.foldl (fun acc src => ops.mergeSec ps acc src) base) =
      ops.pfxOf base := by
  induction srcs generalizing base with
  | nil => rfl
  | cons s srcs ih =>
    rw [List.foldl_cons, ih, hc.merge_pfx]

/-- `handleOne` preserves the partition-map invariant on every non-fatal
outcome, given the section contracts. -/
theorem handleOne_inv {S M : Type} {ops : SOps S M} (hc : SContracts ops)
    {ps : Params} {st st1 : SMap S × TickStats} {a : Act M}
    (hInv : Inv ops st.1) (h : handleOne ops ps st a = Except.ok st1) :
    Inv ops st1.1 := by
  obtain ⟨hnd, hec, hki⟩ := hInv
  cases a with
  | Reject n =>
    simp only [handleOne, Except.ok.injEq] at h
    rw [← h]
    exact ⟨hnd, hec, hki⟩
  | Merge target =>
    simp only [handleOne] at h
    by_cases hse : ((Keys st.1).filter (fun p => isDescendant p target)).isEmpty = true
    · rw [if_pos hse] at h
      simp only [Except.ok.injEq] at h
      rw [← h]
      exact ⟨hnd, hec, hki⟩
    · rw [if_neg hse] at h
      have hse2 : (Keys st.1).filter (fun p => isDescendant p target) ≠ [] := by
        intro h0
        exact hse (by rw [h0]; rfl)
      obtain ⟨d, hd⟩ := List.exists_mem_of_ne_nil _ hse2
      have hdf := List.mem_filter.1 hd
      obtain ⟨htd, hne⟩ := (isDescendant_iff d target).1 hdf.2
      have hanc := hec.no_anc_of_desc hdf.1 htd hne
      have htn : target ∉ Keys st.1 :=
        fun ht => hanc target ht (List.prefix_refl target)
      have hrem : ((Keys st.1).filter (fun p => isDescendant p target)).foldl
          (fun m k => alRemove k m) st.1 =
          st.1.filter (fun e =>
            !(decide (e.1 ∈ (Keys st.1).filter (fun p => isDescendant p target)))) :=
        foldl_alRemove _ _ hnd
      have hkeys1 : Keys (st.1.filter (fun e =>
          !(decide (e.1 ∈ (Keys st.1).filter (fun p => isDescendant p target))))) =
          (Keys st.1).filter (fun p =>
            !(decide (p ∈ (Keys st.1).filter (fun p => isDescendant p target)))) :=
        keys_filter
          (fun p => !(decide (p ∈ (Keys st.1).filter (fun p => isDescendant p target))))
          st.1
      have hlt : alLookup target (st.1.filter (fun e =>
          !(decide (e.1 ∈ (Keys st.1).filter (fun p => isDescendant p target))))) = none := by
        rw [alLookup_eq_none, hkeys1]
        intro hmem
        exact htn (List.mem_of_mem_filter hmem)
      rw [hrem, hlt] at h
      simp only [Except.ok.injEq] at h
      rw [← h]
      constructor
      · -- key uniqueness
        rw [Keys_append, hkeys1]
        rw [List.nodup_append]
        refine ⟨hnd.filter _, List.nodup_singleton target, ?_⟩
        intro x hx hxt
        rw [show Keys [(target, ((Keys st.1).filter
            (fun p => isDescendant p target)).filterMap (fun k => alLookup k st.1)
            |>.foldl (fun acc src => ops.mergeSec ps acc src) (ops.newSec target))] =
            [target] from rfl] at hxt
        rw [List.mem_singleton] at hxt
        exact htn (hxt ▸ List.mem_of_mem_filter hx)
      constructor
      · -- exact partition
        refine hec.mergeStep hdf.1 htd hne ?_
        intro p
        rw [Keys_append, List.mem_append, hkeys1]
        constructor
        · rintro (hp | hp)
          · have hp1 := List.mem_filter.1 hp
            refine Or.inl ⟨hp1.1, ?_⟩
            intro hdesc
            have hp2 : p ∈ (Keys st.1).filter (fun q => isDescendant q target) :=
              List.mem_filter.2 ⟨hp1.1, (isDescendant_iff p target).2 hdesc⟩
            simp [hp2] at hp1
          · rw [show Keys [(target, ((Keys st.1).filter
              (fun q => isDescendant q target)).filterMap (fun k => alLookup k st.1)
              |>.foldl (fun acc src => ops.mergeSec ps acc src) (ops.newSec target))] =
              [target] from rfl, List.mem_singleton] at hp
            exact Or.inr hp
        · rintro (⟨hp1, hp2⟩ | hp)
          · refine Or.inl (List.mem_filter.2 ⟨hp1, ?_⟩)
            simp only [Bool.not_eq_true', decide_eq_false_iff_not]
            intro hmem
            exact hp2 ((isDescendant_iff p target).1 (List.mem_filter.1 hmem).2)
          · subst hp
            right
            simp [Keys]
      · -- keys agree with recorded section keys
        intro e he
        rcases List.mem_append.1 he with he1 | he1
        · exact hki e (List.mem_of_mem_filter he1)
        · rw [List.mem_singleton] at he1
          subst he1
          rw [pfxOf_foldl_merge hc, hc.new_pfx]
  | Split source =>
    simp only [handleOne] at h
    rcases hls : alLookup source st.1 with _ | sec
    · rw [hls] at h
      simp only [Except.ok.injEq] at h
      rw [← h]
      exact ⟨hnd, hec, hki⟩
    · simp only [hls] at h
      have hmem0 : (source, sec) ∈ st.1 := alLookup_mem hls
      have hsrc : source ∈ Keys st.1 := fst_mem_Keys hmem0
      have hpsec : ops.pfxOf sec = source := hki _ hmem0
      have hp0 : ops.pfxOf (ops.splitSec ps sec).1 = source ++ [false] := by
        rw [(hc.split_pfx ps sec).1, hpsec]
      have hp1 : ops.pfxOf (ops.splitSec ps sec).2 = source ++ [true] := by
        rw [(hc.split_pfx ps sec).2, hpsec]
      have hne0 : source ++ [false] ∉ Keys st.1 := by
        intro hmem
        exact ne_append_singleton source false
          (hec.anc_eq hsrc hmem (List.prefix_append source [false]))
      have hne1 : source ++ [true] ∉ Keys st.1 := by
        intro hmem
        exact ne_append_singleton source true
          (hec.anc_eq hsrc hmem (List.prefix_append source [true]))
      have hrem : alRemove source st.1 =
          st.1.filter (fun e => decide (e.1 ≠ source)) := alRemove_eq_filter source hnd
      have hkeys1 : Keys (st.1.filter (fun e => decide (e.1 ≠ source))) =
          (Keys st.1).filter (fun p => decide (p ≠ source)) :=
        keys_filter (fun p => decide (p ≠ source)) st.1
      have hsub : ∀ p : Pfx, p ∈ Keys (alRemove source st.1) → p ∈ Keys st.1 := by
        intro p hp
        rw [hrem, hkeys1] at hp
        exact List.mem_of_mem_filter hp
      have hl0 : alLookup (ops.pfxOf (ops.splitSec ps sec).1)
          (alRemove source st.1) = none := by
        rw [alLookup_eq_none]
        intro hmem
        exact hne0 (hp0 ▸ hsub _ hmem)
      have hl1 : alLookup (ops.pfxOf (ops.splitSec ps sec).2)
          (alRemove source st.1 ++
            [(ops.pfxOf (ops.splitSec ps sec).1, (ops.splitSec ps sec).1)]) = none := by
        rw [alLookup_append]
        have hl1a : alLookup (ops.pfxOf (ops.splitSec ps sec).2)
            (alRemove source st.1) = none := by
          rw [alLookup_eq_none]
          intro hmem
          exact hne1 (hp1 ▸ hsub _ hmem)
        rw [hl1a]
        rw [alLookup, if_neg, alLookup]
        intro heq
        rw [hp0, hp1] at heq
        exact children_ne source heq
      rw [hl0, hl1] at h
      simp only [Option.isSome_none, Bool.false_eq_true, if_false, Except.ok.injEq] at h
      rw [← h]
      have hkeysres : Keys (alRemove source st.1 ++
          [(ops.pfxOf (ops.splitSec ps sec).1, (ops.splitSec ps sec).1)] ++
          [(ops.pfxOf (ops.splitSec ps sec).2, (ops.splitSec ps sec).2)]) =
          (Keys st.1).filter (fun p => decide (p ≠ source)) ++
            [source ++ [false]] ++ [source ++ [true]] := by
        rw [Keys_append, Keys_append, hrem, hkeys1]
        rw [show Keys [(ops.pfxOf (ops.splitSec ps sec).1, (ops.splitSec ps sec).1)] =
          [ops.pfxOf (ops.splitSec ps sec).1] from rfl]
        rw [show Keys [(ops.pfxOf (ops.splitSec ps sec).2, (ops.splitSec ps sec).2)] =
          [ops.pfxOf (ops.splitSec ps sec).2] from rfl]
        rw [hp0, hp1]
      constructor
      · rw [hkeysres, List.nodup_append, List.nodup_append]
        refine ⟨⟨hnd.filter _, List.nodup_singleton _, ?_⟩,
          List.nodup_singleton _, ?_⟩
        · intro x hx hx0
          rw [List.mem_singleton] at hx0
          exact hne0 (hx0 ▸ List.mem_of_mem_filter hx)
        · intro x hx hx1
          rw [List.mem_singleton] at hx1
          rcases List.mem_append.1 hx with hx2 | hx2
          · exact hne1 (hx1 ▸ List.mem_of_mem_filter hx2)
          · rw [List.mem_singleton] at hx2
            exact children_ne source (hx2 ▸ hx1 ▸ rfl)
      constructor
      · refine hec.splitStep hsrc ?_
        intro p
        rw [hkeysres, List.mem_append, List.mem_append, List.mem_singleton,
          List.mem_singleton]
        constructor
        · rintro ((hp | hp) | hp)
          · have hp2 := List.mem_filter.1 hp
            exact Or.inl ⟨hp2.1, by simpa using hp2.2⟩
          · exact Or.inr (Or.inl hp)
          · exact Or.inr (Or.inr hp)
        · rintro (⟨hp1, hp2⟩ | hp | hp)
          · exact Or.inl (Or.inl (List.mem_filter.2 ⟨hp1, by simpa using hp2⟩))
          · exact Or.inl (Or.inr hp)
          · exact Or.inr hp
      · intro e he
        rcases List.mem_append.1 he with he1 | he1
        · rcases List.mem_append.1 he1 with he2 | he2
          · rw [hrem] at he2
            exact hki e (List.mem_of_mem_filter he2)
          · rw [List.mem_singleton] at he2
            subst he2
            rfl
        · rw [List.mem_singleton] at he1
          subst he1
          rfl
  | Send m =>
    simp only [handleOne] at h
    rcases hsend : sendTo ops m st.1 with _ | secs1
    · rw [hsend] at h
      simp at h
    · rw [hsend] at h
      simp only [Except.ok.injEq] at h
      rw [← h]
      obtain ⟨l, e, r, hdec, -, -, hres⟩ := sendTo_some hsend
      have hkeq : Keys secs1 = Keys st.1 := by
        rw [hres, hdec, Keys_append, Keys_append]
        rfl
      refine ⟨hkeq ▸ hnd, hkeq ▸ hec, ?_⟩
      intro e1 he1
      rw [hres] at he1
      rcases List.mem_append.1 he1 with he2 | he2
      · exact hki e1 (hdec ▸ List.mem_append_left _ he2)
      · rcases List.mem_cons.1 he2 with he3 | he3
        · subst he3
          rw [hc.receive_pfx]
          exact hki e (hdec ▸ List.mem_append_right l (List.mem_cons_self e r))
        · exact hki e1 (hdec ▸ List.mem_append_right l (List.mem_cons_of_mem e he3))

/-- The action loop of `handle_actions` preserves the invariant on every
non-fatal outcome. -/
theorem runActs_inv {S M : Type} {ops : SOps S M} (hc : SContracts ops)
    {ps : Params} {acts : List (Act M)} {st st1 : SMap S × TickStats}
    (hInv : Inv ops st.1) (h : runActs ops ps acts st = Except.ok st1) :
    Inv ops st1.1 := by
  induction acts generalizing st with
  | nil =>
    simp only [runActs, Except.ok.injEq] at h
    rw [← h]
    exact hInv
  | cons a rest ih =>
    simp only [runActs] at h
    rcases h1 : handleOne ops ps st a with e | st2
    · simp [h1] at h
    · simp only [h1] at h
      exact ih (handleOne_inv hc hInv h1) h

theorem evalAll_keys {S M : Type} (ops : SOps S M) (ps : Params) (secs : SMap S) :
    Keys (evalAll ops ps secs).1 = Keys secs := by
  induction secs with
  | nil => rfl
  | cons e rest ih =>
    show e.1 :: Keys (evalAll ops ps rest).1 = e.1 :: Keys rest
    rw [ih]

theorem evalAll_keyinv {S M : Type} {ops : SOps S M} (hc : SContracts ops)
    {ps : Params} {secs : SMap S} (h : KeyInv ops secs) :
    KeyInv ops (evalAll ops ps secs).1 := by
  induction secs with
  | nil =>
    intro e he
    simp [evalAll] at he
  | cons e rest ih =>
    intro e1 he1
    have hshape : (evalAll ops ps (e :: rest)).1 =
        (e.1, (ops.evalSec ps e.2).1) :: (evalAll ops ps rest).1 := rfl
    rw [hshape] at he1
    rcases List.mem_cons.1 he1 with he2 | he2
    · subst he2
      show ops.pfxOf (ops.evalSec ps e.2).1 = e.1
      rw [hc.eval_pfx, h e (List.mem_cons_self e rest)]
    · exact ih (fun e2 h2 => h e2 (List.mem_cons_of_mem e h2)) e1 he2

theorem evalAll_inv {S M : Type} {ops : SOps S M} (hc : SContracts ops)
    {ps : Params} {secs : SMap S} (hInv : Inv ops secs) :
    Inv ops (evalAll ops ps secs).1 := by
  refine ⟨?_, ?_, evalAll_keyinv hc hInv.2.2⟩
  · rw [evalAll_keys]
    exact hInv.1
  · rw [evalAll_keys]
    exact hInv.2.1

theorem keys_map_prepare {S M : Type} (ops : SOps S M) (secs : SMap S) :
    Keys (secs.map (fun e => (e.1, ops.prepareSec e.2))) = Keys secs := by
  induction secs with
  | nil => rfl
  | cons e rest ih =>
    show e.1 :: Keys (rest.map (fun e => (e.1, ops.prepareSec e.2))) = e.1 :: Keys rest
    rw [ih]

theorem prepare_inv {S M : Type} {ops : SOps S M} (hc : SContracts ops)
    {secs : SMap S} (hInv : Inv ops secs) :
    Inv ops (secs.map (fun e => (e.1, ops.prepareSec e.2))) := by
  refine ⟨?_, ?_, ?_⟩
  · rw [keys_map_prepare]
    exact hInv.1
  · rw [keys_map_prepare]
    exact hInv.2.1
  · intro e1 he1
    rcases List.mem_map.1 he1 with ⟨e, he, hee⟩
    rw [← hee]
    show ops.pfxOf (ops.prepareSec e.2) = e.1
    rw [hc.prepare_pfx]
    exact hInv.2.2 e he

theorem fixLoop_inv {S M : Type} {ops : SOps S M} (hc : SContracts ops)
    {ps : Params} {fuel : Nat} {secs : SMap S} {res : SMap S × List TickStats}
    (hInv : Inv ops secs) (h : fixLoop ops ps fuel secs = Except.ok res) :
    Inv ops res.1 := by
  induction fuel generalizing secs res with
  | zero => simp [fixLoop] at h
  | succ fuel ih =>
    simp only [fixLoop] at h
    by_cases he : (evalAll ops ps secs).2.isEmpty = true
    · rw [if_pos he] at h
      simp only [Except.ok.injEq] at h
      rw [← h]
      exact evalAll_inv hc hInv
    · rw [if_neg he] at h
      rcases h1 : handleActions ops ps (evalAll ops ps secs).2 (evalAll ops ps secs).1
        with e | st2
      · simp [h1] at h
      · obtain ⟨secs1, st⟩ := st2
        simp only [h1] at h
        rcases h2 : fixLoop ops ps fuel secs1 with e | res2
        · simp only [h2] at h
          cases h
        · simp only [h2, Except.ok.injEq] at h
          rw [← h]
          show Inv ops res2.1
          have h1a : runActs ops ps (evalAll ops ps secs).2
              ((evalAll ops ps secs).1, TickStats.new) = Except.ok (secs1, st) := h1
          have hInv0 : Inv ops ((evalAll ops ps secs).1, TickStats.new).1 :=
            evalAll_inv hc hInv
          have hInv1 : Inv ops secs1 := runActs_inv hc hInv0 h1a
          exact ih hInv1 h2

theorem tick_inv {S M : Type} {ops : SOps S M} (hc : SContracts ops)
    {fuel iteration : Nat} {net net1 : Network S}
    (hInv : Inv ops net.sections) (h : tick ops fuel iteration net = Except.ok net1) :
    Inv ops net1.sections := by
  simp only [tick, tickCore] at h
  rcases h1 : fixLoop ops net.params fuel
      (net.sections.map (fun e => (e.1, ops.prepareSec e.2))) with e | res
  · simp [h1] at h
  · obtain ⟨secs, rounds⟩ := res
    simp only [h1] at h
    rcases h2 : validate ops net.params secs with e | ds
    · simp only [h2] at h
      cases h
    · simp only [h2, Except.ok.injEq] at h
      rw [← h]
      exact fixLoop_inv hc (prepare_inv hc hInv) h1

theorem netNew_inv {S M : Type} {ops : SOps S M} (hc : SContracts ops) (ps : Params) :
    Inv ops (netNew ops ps).sections := by
  refine ⟨?_, ?_, ?_⟩
  · simp [netNew, Keys]
  · intro a
    refine ⟨[], ⟨?_, pfxMatches_nil a⟩, ?_⟩
    · simp [netNew, Keys]
    · intro q hq _
      simpa [netNew, Keys] using hq
  · intro e he
    simp only [netNew, List.mem_singleton] at he
    subst he
    exact hc.new_pfx []

/-- A minimal concrete `Section`/`Message` collaborator satisfying the
contracts: a section is just its recorded key, messages are trivial. -/
def trivOps : SOps Pfx Unit where
  newSec p := p
  pfxOf s := s
  prepareSec s := s
  evalSec _ s := (s, [])
  mergeSec _ s _ := s
  splitSec _ s := (s ++ [false], s ++ [true])
  receive _ s := s
  nodesLen _ := 0
  nodeAges _ := []
  isComplete _ _ := true
  incomingLen _ := 0
  outgoingLen _ := 0
  countAdults _ _ _ := 0
  msgTarget _ := fun _ => false
  isRelocateCommit _ := false

theorem trivContracts : SContracts trivOps :=
  ⟨fun _ => rfl, fun _ => rfl, fun _ _ => rfl, fun _ _ _ => rfl,
   fun _ _ => ⟨rfl, rfl⟩, fun _ _ => rfl⟩

/-- C1.  Starting from `Network::new(params)` — whose partition map holds
exactly the one root-keyed entry — every network reachable through
completed `tick` calls satisfies the partition invariant (assuming the
`Section` collaborator contracts): the map keys are unique, every address
is matched by exactly one key, and each entry's key equals its section's
own recorded key. -/
theorem c1_partition_invariant {S M : Type} {ops : SOps S M} {ps : Params}
    (hc : SContracts ops) {net : Network S} (h : Reachable ops ps net) :
    Inv ops net.sections := by
  induction h with
  | base => exact netNew_inv hc ps
  | step fuel iteration hr ht ih => exact tick_inv hc ih ht

/-- Witness for C1 at the concrete trivial collaborator and the initial
network. -/
theorem c1_partition_invariant_witness :
    Inv trivOps (netNew trivOps ⟨8⟩).sections :=
  c1_partition_invariant trivContracts Reachable.base

def isSplitAct {M : Type} : Act M → Bool
  | Act.Split _ => true
  | _ => false

def isRejectAct {M : Type} : Act M → Bool
  | Act.Reject _ => true
  | _ => false

/-- A `Send` carrying a `RelocateCommit` message. -/
def isRelocSend {S M : Type} (ops : SOps S M) : Act M → Bool
  | Act.Send m => ops.isRelocateCommit m
  | _ => false

/-- Per-action counter bookkeeping: on every non-fatal outcome, one action
adds one split for a `Split` (present or not), one rejection for a
`Reject`, and one relocation for a delivered `RelocateCommit`. -/
theorem handleOne_counts {S M : Type} {ops : SOps S M} {ps : Params}
    {st st2 : SMap S × TickStats} {a : Act M}
    (h : handleOne ops ps st a = Except.ok st2) :
    st2.2.splits = st.2.splits + (if isSplitAct a then 1 else 0) ∧
    st2.2.rejections = st.2.rejections + (if isRejectAct a then 1 else 0) ∧
    st2.2.relocations = st.2.relocations + (if isRelocSend ops a then 1 else 0) := by
  cases a with
  | Reject n =>
    simp only [handleOne, Except.ok.injEq] at h
    rw [← h]
    simp [isSplitAct, isRejectAct, isRelocSend]
  | Merge target =>
    simp only [handleOne] at h
    by_cases hse : ((Keys st.1).filter (fun p => isDescendant p target)).isEmpty = true
    · rw [if_pos hse] at h
      simp only [Except.ok.injEq] at h
      rw [← h]
      simp [isSplitAct, isRejectAct, isRelocSend]
    · rw [if_neg hse] at h
      rcases hl : alLookup target (((Keys st.1).filter
          (fun p => isDescendant p target)).foldl (fun m k => alRemove k m) st.1)
        with _ | s
      · rw [hl] at h
        simp only [Except.ok.injEq] at h
        rw [← h]
        simp [isSplitAct, isRejectAct, isRelocSend]
      · rw [hl] at h
        simp only [Except.ok.injEq] at h
        rw [← h]
        simp [isSplitAct, isRejectAct, isRelocSend]
  | Split source =>
    simp only [handleOne] at h
    rcases hl : alLookup source st.1 with _ | sec
    · rw [hl] at h
      simp only [Except.ok.injEq] at h
      rw [← h]
      simp [isSplitAct, isRejectAct, isRelocSend]
    · simp only [hl] at h
      by_cases h0 : (alLookup (ops.pfxOf (ops.splitSec ps sec).1)
          (alRemove source st.1)).isSome = true
      · rw [if_pos h0] at h
        cases h
      · rw [if_neg h0] at h
        by_cases h1 : (alLookup (ops.pfxOf (ops.splitSec ps sec).2)
            (alRemove source st.1 ++
              [(ops.pfxOf (ops.splitSec ps sec).1, (ops.splitSec ps sec).1)])).isSome = true
        · rw [if_pos h1] at h
          cases h
        · rw [if_neg h1] at h
          simp only [Except.ok.injEq] at h
          rw [← h]
          simp [isSplitAct, isRejectAct, isRelocSend]
  | Send m =>
    simp only [handleOne] at h
    rcases hl : sendTo ops m st.1 with _ | secs1
    · rw [hl] at h
      cases h
    · rw [hl] at h
      simp only [Except.ok.injEq] at h
      rw [← h]
      by_cases hr : ops.isRelocateCommit m = true
      · simp [isSplitAct, isRejectAct, isRelocSend, hr]
      · simp only [Bool.not_eq_true] at hr
        simp [isSplitAct, isRejectAct, isRelocSend, hr]

/-- The split, rejection and relocation counters after a non-fatal action
run are determined by the initial counters and the per-kind action counts
alone. -/
theorem runActs_counts {S M : Type} {ops : SOps S M} {ps : Params}
    {acts : List (Act M)} {st st1 : SMap S × TickStats}
    (h : runActs ops ps acts st = Except.ok st1) :
    st1.2.splits = st.2.splits + acts.countP isSplitAct ∧
    st1.2.rejections = st.2.rejections + acts.countP isRejectAct ∧
    st1.2.relocations = st.2.relocations + acts.countP (isRelocSend ops) := by
  induction acts generalizing st with
  | nil =>
    simp only [runActs, Except.ok.injEq] at h
    rw [← h]
    simp
  | cons a rest ih =>
    simp only [runActs] at h
    rcases h1 : handleOne ops ps st a with e | st2
    · simp [h1] at h
    · simp only [h1] at h
      obtain ⟨hs, hr, hc⟩ := handleOne_counts h1
      obtain ⟨hs1, hr1, hc1⟩ := ih h
      refine ⟨?_, ?_, ?_⟩ <;>
        rw [List.countP_cons]
      · rw [hs1, hs, Nat.add_assoc, Nat.add_comm (if isSplitAct a then 1 else 0)]
      · rw [hr1, hr, Nat.add_assoc, Nat.add_comm (if isRejectAct a then 1 else 0)]
      · rw [hc1, hc, Nat.add_assoc, Nat.add_comm (if isRelocSend ops a then 1 else 0)]

/-- C4 (amended).  Resolving two permutations of the same action list from
the same map — in particular any reordering of the per-section blocks —
yields equal splits, rejections and relocations counters whenever both
resolutions complete without a fatal error: each of these counters depends
only on the multiset of actions.  (The final map and the merges counter are
not order-invariant; see the counterexample.) -/
theorem c4_perm_counters {S M : Type} (ops : SOps S M) (ps : Params)
    (acts1 acts2 : List (Act M)) (secs : SMap S)
    (hperm : acts1.Perm acts2)
    {m1 m2 : SMap S} {st1 st2 : TickStats}
    (h1 : handleActions ops ps acts1 secs = Except.ok (m1, st1))
    (h2 : handleActions ops ps acts2 secs = Except.ok (m2, st2)) :
    st1.splits = st2.splits ∧ st1.rejections = st2.rejections ∧
      st1.relocations = st2.relocations := by
  obtain ⟨ha1, hb1, hc1⟩ := runActs_counts h1
  obtain ⟨ha2, hb2, hc2⟩ := runActs_counts h2
  refine ⟨?_, ?_, ?_⟩
  · rw [ha1, ha2, hperm.countP_eq]
  · rw [hb1, hb2, hperm.countP_eq]
  · rw [hc1, hc2, hperm.countP_eq]

/-- A concrete collaborator whose merge fold is commutative (as the spec
demands) yet not nesting-coherent: a section is its key together with a
numeric content, and absorbing a source adds the square of its content. -/
def cexOps : SOps (Pfx × Nat) Unit where
  newSec p := (p, 0)
  pfxOf s := s.1
  prepareSec s := s
  evalSec _ s := (s, [])
  mergeSec _ s t := (s.1, s.2 + t.2 * t.2)
  splitSec _ s := ((s.1 ++ [false], 0), (s.1 ++ [true], 0))
  receive _ s := s
  nodesLen s := s.2
  nodeAges _ := []
  isComplete _ _ := true
  incomingLen _ := 0
  outgoingLen _ := 0
  countAdults _ _ _ := 0
  msgTarget _ := fun _ => false
  isRelocateCommit _ := false

theorem cexContracts : SContracts cexOps :=
  ⟨fun _ => rfl, fun _ => rfl, fun _ _ => rfl, fun _ _ _ => rfl,
   fun _ _ => ⟨rfl, rfl⟩, fun _ _ => rfl⟩

/-- A partition map with sections at `00`, `01` and `1`. -/
def cexMap : SMap (Pfx × Nat) :=
  [([false, false], ([false, false], 1)),
   ([false, true], ([false, true], 1)),
   ([true], ([true], 0))]

/-- C4 counterexample.  Two single-action blocks emitted by distinct
sections — `Merge(0)` (a section asking to merge into its parent `0`) and
`Merge(root)` — are resolved in both block orders from `cexMap`; the
collaborator satisfies the section contracts and its merge fold is
commutative, yet one order counts two merges and the other one, and the
final partition maps differ. -/
theorem c4_counterexample :
    SContracts cexOps ∧
    (∀ ps x a b, cexOps.mergeSec ps (cexOps.mergeSec ps x a) b =
      cexOps.mergeSec ps (cexOps.mergeSec ps x b) a) ∧
    handleActions cexOps ⟨8⟩ ([Act.Merge [false]] ++ [Act.Merge []]) cexMap =
      Except.ok ([([], ([], 4))], ⟨2, 0, 0, 0⟩) ∧
    handleActions cexOps ⟨8⟩ ([Act.Merge []] ++ [Act.Merge [false]]) cexMap =
      Except.ok ([([], ([], 2))], ⟨1, 0, 0, 0⟩) ∧
    (2 : Nat) ≠ 1 ∧
    ([([], (([] : Pfx), 4))] : SMap (Pfx × Nat)) ≠ [([], ([], 2))] := by
  refine ⟨cexContracts, ?_, ?_, ?_, by decide, by decide⟩
  · intro ps x a b
    show (x.1, x.2 + a.2 * a.2 + b.2 * b.2) = (x.1, x.2 + b.2 * b.2 + a.2 * a.2)
    rw [Nat.add_right_comm]
  · rfl
  · rfl

/-- C9.  A `Merge(target)` processed against a map in which no key is a
strict descendant of `target` is a complete no-op: the map and every
counter are returned unchanged and no fatal condition arises — hence
resolving a duplicate `Merge` for the same target a second time is
idempotent. -/
theorem c9_merge_noop {S M : Type} (ops : SOps S M) (ps : Params)
    (secs : SMap S) (stats : TickStats) (target : Pfx)
    (h : ∀ e, e ∈ secs → isDescendant e.1 target = false) :
    handleOne ops ps (secs, stats) (Act.Merge target) = Except.ok (secs, stats) := by
  have hemp : (Keys secs).filter (fun p => isDescendant p target) = [] := by
    rw [List.filter_eq_nil_iff]
    intro p hp
    rcases mem_Keys.1 hp with ⟨s, hs⟩
    simp [h (p, s) hs]
  simp [handleOne, hemp]

/-- Witness for C9 at a concrete one-entry map and a disjoint target. -/
theorem c9_merge_noop_witness :
    (∀ e, e ∈ [(([] : Pfx), ([] : Pfx))] → isDescendant e.1 [false] = false) ∧
    handleOne trivOps ⟨8⟩ ([(([] : Pfx), ([] : Pfx))], TickStats.new)
      (Act.Merge [false]) = Except.ok ([(([] : Pfx), ([] : Pfx))], TickStats.new) :=
  ⟨by decide, c9_merge_noop trivOps ⟨8⟩ _ _ _ (by decide)⟩

/-- C3 (amended).  A `Split(source)` whose source key is absent leaves the
partition map unchanged and raises no fatal condition, and it contributes
zero to the merges, relocations and rejections counters — but, contrary to
the original claim, it still increments the splits counter by one, because
the counter is bumped before the presence check. -/
theorem c3_split_absent {S M : Type} (ops : SOps S M) (ps : Params)
    (secs : SMap S) (stats : TickStats) (source : Pfx)
    (h : alLookup source secs = none) :
    handleOne ops ps (secs, stats) (Act.Split source) =
      Except.ok (secs, { stats with splits := stats.splits + 1 }) := by
  simp [handleOne, h]

/-- C3 counterexample: at a concrete map with only the root entry, a
`Split` of the absent key `0` is a map no-op yet returns a splits counter
of 1, not the 0 that the claim asserts for every counter. -/
theorem c3_split_absent_counterexample :
    handleOne trivOps ⟨8⟩ ([(([] : Pfx), ([] : Pfx))], TickStats.new)
      (Act.Split [false]) =
      Except.ok ([(([] : Pfx), ([] : Pfx))], ⟨0, 1, 0, 0⟩) ∧
    (⟨0, 1, 0, 0⟩ : TickStats).splits ≠ TickStats.new.splits := by
  exact ⟨rfl, by decide⟩

/-- Witness for the amended C3 at a concrete input. -/
theorem c3_split_absent_witness :
    alLookup [false] [(([] : Pfx), ([] : Pfx))] = none ∧
    handleOne trivOps ⟨8⟩ ([(([] : Pfx), ([] : Pfx))], TickStats.new)
      (Act.Split [false]) =
      Except.ok ([(([] : Pfx), ([] : Pfx))],
        { TickStats.new with splits := TickStats.new.splits + 1 }) :=
  ⟨rfl, c3_split_absent trivOps ⟨8⟩ _ _ _ rfl⟩

/-- Witness for the amended C4: the two orders of a `Reject` and a stale
`Split` resolve with identical splits, rejections and relocations
counters. -/
theorem c4_perm_counters_witness :
    ([Act.Reject 0, Act.Split [false]] : List (Act Unit)).Perm
      [Act.Split [false], Act.Reject 0] ∧
    handleActions trivOps ⟨8⟩ [Act.Reject 0, Act.Split [false]]
      [(([] : Pfx), ([] : Pfx))] = Except.ok ([(([] : Pfx), ([] : Pfx))], ⟨0, 1, 0, 1⟩) ∧
    handleActions trivOps ⟨8⟩ [Act.Split [false], Act.Reject 0]
      [(([] : Pfx), ([] : Pfx))] = Except.ok ([(([] : Pfx), ([] : Pfx))], ⟨0, 1, 0, 1⟩) ∧
    ((⟨0, 1, 0, 1⟩ : TickStats).splits = (⟨0, 1, 0, 1⟩ : TickStats).splits ∧
     (⟨0, 1, 0, 1⟩ : TickStats).rejections = (⟨0, 1, 0, 1⟩ : TickStats).rejections ∧
     (⟨0, 1, 0, 1⟩ : TickStats).relocations = (⟨0, 1, 0, 1⟩ : TickStats).relocations) :=
  ⟨by decide, rfl, rfl,
   c4_perm_counters trivOps ⟨8⟩ _ _ _ (by decide)
     (show handleActions trivOps ⟨8⟩ [Act.Reject 0, Act.Split [false]]
        [(([] : Pfx), ([] : Pfx))] =
        Except.ok ([(([] : Pfx), ([] : Pfx))], ⟨0, 1, 0, 1⟩) from rfl)
     (show handleActions trivOps ⟨8⟩ [Act.Split [false], Act.Reject 0]
        [(([] : Pfx), ([] : Pfx))] =
        Except.ok ([(([] : Pfx), ([] : Pfx))], ⟨0, 1, 0, 1⟩) from rfl)⟩

/-- C2.  A `Merge(target)` processed while at least one mapped key is a
strict descendant of `target` removes exactly the strict-descendant entries
(and no others), folds each removed section via the section merge operation
into the section at `target` — a fresh `Section::new(target)` when that key
was absent, the pre-existing section retained otherwise — and increments
the merges counter by exactly one, regardless of the number of sources. -/
theorem c2_merge_absorbs {S M : Type} (ops : SOps S M) (ps : Params)
    (secs : SMap S) (stats : TickStats) (target : Pfx)
    (hnd : (Keys secs).Nodup)
    (hne : ∃ e, e ∈ secs ∧ isDescendant e.1 target = true) :
    handleOne ops ps (secs, stats) (Act.Merge target) =
      Except.ok
        ((match alLookup target secs with
          | some _ =>
            alUpdate target
              (fun _ =>
                ((secs.filter (fun e => isDescendant e.1 target)).map Prod.snd).foldl
                  (fun acc src => ops.mergeSec ps acc src)
                  ((alLookup target secs).getD (ops.newSec target)))
              (secs.filter (fun e => !(isDescendant e.1 target)))
          | none =>
            secs.filter (fun e => !(isDescendant e.1 target)) ++
              [(target,
                ((secs.filter (fun e => isDescendant e.1 target)).map Prod.snd).foldl
                  (fun acc src => ops.mergeSec ps acc src) (ops.newSec target))]),
         { stats with merges := stats.merges + 1 }) := by
  obtain ⟨e0, he0, hd0⟩ := hne
  simp only [handleOne]
  have hmem : e0.1 ∈ (Keys secs).filter (fun p => isDescendant p target) :=
    List.mem_filter.2 ⟨fst_mem_Keys he0, hd0⟩
  have hse : ¬(((Keys secs).filter (fun p => isDescendant p target)).isEmpty = true) := by
    intro h0
    rw [List.isEmpty_iff] at h0
    rw [h0] at hmem
    simp at hmem
  rw [if_neg hse]
  have hrem : ((Keys secs).filter (fun p => isDescendant p target)).foldl
      (fun m k => alRemove k m) secs =
      secs.filter (fun e =>
        !(decide (e.1 ∈ (Keys secs).filter (fun p => isDescendant p target)))) :=
    foldl_alRemove _ _ hnd
  have hfe : secs.filter (fun e =>
      !(decide (e.1 ∈ (Keys secs).filter (fun p => isDescendant p target)))) =
      secs.filter (fun e => !(isDescendant e.1 target)) := by
    apply List.filter_congr
    intro e he
    by_cases hd : isDescendant e.1 target = true
    · have hin : e.1 ∈ (Keys secs).filter (fun p => isDescendant p target) :=
        List.mem_filter.2 ⟨fst_mem_Keys he, hd⟩
      simp [hin, hd]
    · have hout : e.1 ∉ (Keys secs).filter (fun p => isDescendant p target) :=
        fun hm => hd (List.mem_filter.1 hm).2
      have hd1 : isDescendant e.1 target = false := by
        simpa using hd
      simp [hout, hd1]
  have hsrc : ((Keys secs).filter (fun p => isDescendant p target)).filterMap
      (fun k => alLookup k secs) =
      (secs.filter (fun e => isDescendant e.1 target)).map Prod.snd :=
    filterMap_alLookup_filter (fun p => isDescendant p target) hnd
  have hlt : alLookup target (secs.filter (fun e => !(isDescendant e.1 target))) =
      alLookup target secs := by
    apply alLookup_filter
    intro e _ heq
    rw [heq, isDescendant_self_false]
    rfl
  rw [hrem, hfe, hsrc, hlt]
  rcases hl : alLookup target secs with _ | s
  · simp [hl]
  · simp only [hl]
    have hndk : (Keys (secs.filter (fun e => !(isDescendant e.1 target)))).Nodup := by
      have h1 : Keys (secs.filter (fun e => !(isDescendant e.1 target))) =
          (Keys secs).filter (fun p => !(isDescendant p target)) :=
        keys_filter (fun p => !(isDescendant p target)) secs
      rw [h1]
      exact hnd.filter _
    have hlk : alLookup target (secs.filter (fun e => !(isDescendant e.1 target))) =
        some s := by
      rw [hlt, hl]
    have hupd : alUpdate target
        (fun x => ((secs.filter (fun e => isDescendant e.1 target)).map Prod.snd).foldl
          (fun acc src => ops.mergeSec ps acc src) x)
        (secs.filter (fun e => !(isDescendant e.1 target))) =
      alUpdate target
        (fun _ => ((secs.filter (fun e => isDescendant e.1 target)).map Prod.snd).foldl
          (fun acc src => ops.mergeSec ps acc src) ((some s).getD (ops.newSec target)))
        (secs.filter (fun e => !(isDescendant e.1 target))) :=
      alUpdate_congr hndk hlk _ _ rfl
    rw [hupd]

/-- Witness for C2: merging the two children of `0` into the absent key
`0` over a three-entry map. -/
theorem c2_merge_absorbs_witness :
    (Keys cexMap).Nodup ∧
    (∃ e, e ∈ cexMap ∧ isDescendant e.1 [false] = true) ∧
    handleOne cexOps ⟨8⟩ (cexMap, TickStats.new) (Act.Merge [false]) =
      Except.ok ([([true], ([true], 0)), ([false], ([false], 2))], ⟨1, 0, 0, 0⟩) := by
  refine ⟨by decide, by decide, ?_⟩
  have h := c2_merge_absorbs cexOps ⟨8⟩ cexMap TickStats.new [false]
    (by decide) (by decide)
  rw [h]
  rfl

/-- C6.  A `Split(source)` whose source key is present removes that entry,
lets the section's split operation produce exactly two new sections, and
inserts each at its own recorded key; the outcome is fatal exactly when one
of the two child keys is already mapped at the moment of its insertion
(the second check seeing the freshly inserted first child), and when
neither pre-exists the resulting map contains both children and the splits
counter is incremented by one. -/
theorem c6_split_present {S M : Type} (ops : SOps S M) (ps : Params)
    (secs : SMap S) (stats : TickStats) (source : Pfx) (sec : S)
    (h : alLookup source secs = some sec) :
    ((∃ msg, handleOne ops ps (secs, stats) (Act.Split source) = Except.error msg) ↔
      ((alLookup (ops.pfxOf (ops.splitSec ps sec).1) (alRemove source secs)).isSome = true ∨
       (alLookup (ops.pfxOf (ops.splitSec ps sec).2)
         (alRemove source secs ++
           [(ops.pfxOf (ops.splitSec ps sec).1, (ops.splitSec ps sec).1)])).isSome = true)) ∧
    (alLookup (ops.pfxOf (ops.splitSec ps sec).1) (alRemove source secs) = none →
     alLookup (ops.pfxOf (ops.splitSec ps sec).2)
       (alRemove source secs ++
         [(ops.pfxOf (ops.splitSec ps sec).1, (ops.splitSec ps sec).1)]) = none →
     handleOne ops ps (secs, stats) (Act.Split source) =
       Except.ok (alRemove source secs ++
         [(ops.pfxOf (ops.splitSec ps sec).1, (ops.splitSec ps sec).1)] ++
         [(ops.pfxOf (ops.splitSec ps sec).2, (ops.splitSec ps sec).2)],
         { stats with splits := stats.splits + 1 }) ∧
       ops.pfxOf (ops.splitSec ps sec).1 ∈ Keys (alRemove source secs ++
         [(ops.pfxOf (ops.splitSec ps sec).1, (ops.splitSec ps sec).1)] ++
         [(ops.pfxOf (ops.splitSec ps sec).2, (ops.splitSec ps sec).2)]) ∧
       ops.pfxOf (ops.splitSec ps sec).2 ∈ Keys (alRemove source secs ++
         [(ops.pfxOf (ops.splitSec ps sec).1, (ops.splitSec ps sec).1)] ++
         [(ops.pfxOf (ops.splitSec ps sec).2, (ops.splitSec ps sec).2)])) := by
  constructor
  · constructor
    · rintro ⟨msg, hmsg⟩
      simp only [handleOne, h] at hmsg
      by_cases h0 : (alLookup (ops.pfxOf (ops.splitSec ps sec).1)
          (alRemove source secs)).isSome = true
      · exact Or.inl h0
      · rw [if_neg h0] at hmsg
        by_cases h1 : (alLookup (ops.pfxOf (ops.splitSec ps sec).2)
            (alRemove source secs ++
              [(ops.pfxOf (ops.splitSec ps sec).1, (ops.splitSec ps sec).1)])).isSome = true
        · exact Or.inr h1
        · rw [if_neg h1] at hmsg
          cases hmsg
    · intro hcase
      simp only [handleOne, h]
      rcases hcase with h0 | h1
      · rw [if_pos h0]
        exact ⟨_, rfl⟩
      · by_cases h0 : (alLookup (ops.pfxOf (ops.splitSec ps sec).1)
            (alRemove source secs)).isSome = true
        · rw [if_pos h0]
          exact ⟨_, rfl⟩
        · rw [if_neg h0, if_pos h1]
          exact ⟨_, rfl⟩
  · intro h0 h1
    have h0a : ¬((alLookup (ops.pfxOf (ops.splitSec ps sec).1)
        (alRemove source secs)).isSome = true) := by
      rw [h0]
      simp
    have h1a : ¬((alLookup (ops.pfxOf (ops.splitSec ps sec).2)
        (alRemove source secs ++
          [(ops.pfxOf (ops.splitSec ps sec).1, (ops.splitSec ps sec).1)])).isSome = true) := by
      rw [h1]
      simp
    refine ⟨?_, ?_, ?_⟩
    · simp only [handleOne, h]
      rw [if_neg h0a, if_neg h1a]
    · simp [Keys]
    · simp [Keys]

/-- Witness for C6: splitting the root section of a one-entry map into its
two child sections. -/
theorem c6_split_present_witness :
    alLookup [] [(([] : Pfx), ([] : Pfx))] = some ([] : Pfx) ∧
    handleOne trivOps ⟨8⟩ ([(([] : Pfx), ([] : Pfx))], TickStats.new)
      (Act.Split []) =
      Except.ok ([([false], [false]), ([true], [true])], ⟨0, 1, 0, 0⟩) := by
  refine ⟨rfl, ?_⟩
  have h := (c6_split_present trivOps ⟨8⟩ [(([] : Pfx), ([] : Pfx))]
    TickStats.new [] ([] : Pfx) rfl).2 rfl rfl
  rw [h.1]
  rfl

/-- C7.  Resolving a `Send(message)` is fatal exactly when no section's
recorded key matches the message's target address; otherwise the receive
hook of exactly one section — the first matching one — is invoked, the map
keys are unchanged, and the relocations counter is incremented by one
exactly when the message is a `RelocateCommit` (all other counters are
unchanged). -/
theorem c7_send_delivery {S M : Type} (ops : SOps S M) (ps : Params)
    (secs : SMap S) (stats : TickStats) (m : M) :
    ((∃ msg, handleOne ops ps (secs, stats) (Act.Send m) = Except.error msg) ↔
      ∀ e, e ∈ secs → pfxMatches (ops.pfxOf e.2) (ops.msgTarget m) = false) ∧
    (∀ secs1 stats1,
      handleOne ops ps (secs, stats) (Act.Send m) = Except.ok (secs1, stats1) →
      Keys secs1 = Keys secs ∧
      stats1 = (if ops.isRelocateCommit m then
        { stats with relocations := stats.relocations + 1 } else stats) ∧
      ∃ l e r, secs = l ++ e :: r ∧
        (∀ e1, e1 ∈ l → pfxMatches (ops.pfxOf e1.2) (ops.msgTarget m) = false) ∧
        pfxMatches (ops.pfxOf e.2) (ops.msgTarget m) = true ∧
        secs1 = l ++ (e.1, ops.receive m e.2) :: r) := by
  constructor
  · constructor
    · rintro ⟨msg, hmsg⟩
      simp only [handleOne] at hmsg
      rcases hs : sendTo ops m secs with _ | secs1
      · exact (sendTo_none_iff ops m secs).1 hs
      · rw [hs] at hmsg
        cases hmsg
    · intro hall
      simp only [handleOne]
      rw [(sendTo_none_iff ops m secs).2 hall]
      exact ⟨_, rfl⟩
  · intro secs1 stats1 hok
    simp only [handleOne] at hok
    rcases hs : sendTo ops m secs with _ | secs2
    · rw [hs] at hok
      cases hok
    · rw [hs] at hok
      simp only [Except.ok.injEq, Prod.mk.injEq] at hok
      obtain ⟨l, e, r, hdec, hl, hm, hres⟩ := sendTo_some hs
      refine ⟨?_, hok.2.symm, l, e, r, hdec, hl, hm, by rw [← hok.1, hres]⟩
      rw [← hok.1, hres, hdec, Keys_append, Keys_append]
      rfl

/-- A collaborator for exercising delivery: every message is a
`RelocateCommit` targeted at the all-ones address. -/
def sendOps : SOps Pfx Unit :=
  { trivOps with
    msgTarget := fun _ => fun _ => true
    isRelocateCommit := fun _ => true }

/-- A two-entry partition map at the keys `0` and `1`. -/
def sendMap : SMap Pfx := [([false], [false]), ([true], [true])]

/-- The same map after delivery (the trivial receive hook is the
identity). -/
def sendMapAfter : SMap Pfx := [([false], [false]), ([true], [true])]

/-- Witness for C7: delivering a message over a two-entry map whose second
section matches the all-true target address. -/
theorem c7_send_delivery_witness :
    (handleOne sendOps ⟨8⟩ (sendMap, TickStats.new) (Act.Send ()) =
      Except.ok (sendMapAfter, ⟨0, 0, 1, 0⟩)) ∧
    (Keys sendMapAfter = Keys sendMap ∧
      (⟨0, 0, 1, 0⟩ : TickStats) = (if sendOps.isRelocateCommit () then
        { TickStats.new with relocations := TickStats.new.relocations + 1 }
        else TickStats.new) ∧
      ∃ l e r, sendMap = l ++ e :: r ∧
        (∀ e1, e1 ∈ l → pfxMatches (sendOps.pfxOf e1.2) (sendOps.msgTarget ()) = false) ∧
        pfxMatches (sendOps.pfxOf e.2) (sendOps.msgTarget ()) = true ∧
        sendMapAfter = l ++ (e.1, sendOps.receive () e.2) :: r) :=
  ⟨rfl, (c7_send_delivery sendOps ⟨8⟩ sendMap TickStats.new ()).2
    sendMapAfter ⟨0, 0, 1, 0⟩ rfl⟩

theorem validateSec_err_in {S M : Type} (ops : SOps S M) (ps : Params)
    (e : Pfx × S) (hin : 0 < ops.incomingLen e.2) :
    validateSec ops ps e = Except.error "incoming relocation cache not cleared" := by
  simp [validateSec, hin]

theorem validateSec_err_out {S M : Type} (ops : SOps S M) (ps : Params)
    (e : Pfx × S) (hin : ¬ 0 < ops.incomingLen e.2) (hout : 0 < ops.outgoingLen e.2) :
    validateSec ops ps e = Except.error "outgoing relocation cache not cleared" := by
  simp [validateSec, hin, hout]

theorem validateSec_ok {S M : Type} (ops : SOps S M) (ps : Params)
    (e : Pfx × S) (hin : ¬ 0 < ops.incomingLen e.2) (hout : ¬ 0 < ops.outgoingLen e.2) :
    validateSec ops ps e = Except.ok
      (if ps.max_section_size < ops.nodesLen e.2 then
        [⟨ops.pfxOf e.2, ops.nodesLen e.2,
          ops.countAdults ps (pfxSplit (ops.pfxOf e.2)).1 e.2,
          ops.countAdults ps (pfxSplit (ops.pfxOf e.2)).2 e.2⟩]
      else []) := by
  simp only [validateSec, if_neg hin, if_neg hout]

/-- C5.  The validator aborts the run precisely when some section's
incoming or outgoing relocation cache is non-empty; otherwise it returns,
as non-fatal diagnostics, one entry per oversized section reporting the
projected adult counts for the two one-bit children of that section's own
recorded key — so an oversized section alone never aborts. -/
theorem c5_validate_abort {S M : Type} (ops : SOps S M) (ps : Params) (secs : SMap S) :
    ((∃ msg, validate ops ps secs = Except.error msg) ↔
      ∃ e, e ∈ secs ∧ (0 < ops.incomingLen e.2 ∨ 0 < ops.outgoingLen e.2)) ∧
    (∀ ds, validate ops ps secs = Except.ok ds →
      ds = secs.filterMap (fun e =>
        if ps.max_section_size < ops.nodesLen e.2 then
          some ⟨ops.pfxOf e.2, ops.nodesLen e.2,
            ops.countAdults ps (pfxSplit (ops.pfxOf e.2)).1 e.2,
            ops.countAdults ps (pfxSplit (ops.pfxOf e.2)).2 e.2⟩
        else none)) := by
  induction secs with
  | nil =>
    constructor
    · constructor
      · rintro ⟨msg, hmsg⟩
        cases hmsg
      · rintro ⟨e, he, -⟩
        simp at he
    · intro ds hds
      simp only [validate, Except.ok.injEq] at hds
      rw [← hds]
      rfl
  | cons e rest ih =>
    obtain ⟨ih1, ih2⟩ := ih
    by_cases hin : 0 < ops.incomingLen e.2
    · have hv : validate ops ps (e :: rest) =
          Except.error "incoming relocation cache not cleared" := by
        simp only [validate, validateSec_err_in ops ps e hin]
      constructor
      · constructor
        · intro _
          exact ⟨e, List.mem_cons_self e rest, Or.inl hin⟩
        · intro _
          exact ⟨_, hv⟩
      · intro ds hds
        rw [hv] at hds
        cases hds
    · by_cases hout : 0 < ops.outgoingLen e.2
      · have hv : validate ops ps (e :: rest) =
            Except.error "outgoing relocation cache not cleared" := by
          simp only [validate, validateSec_err_out ops ps e hin hout]
        constructor
        · constructor
          · intro _
            exact ⟨e, List.mem_cons_self e rest, Or.inr hout⟩
          · intro _
            exact ⟨_, hv⟩
        · intro ds hds
          rw [hv] at hds
          cases hds
      · have hvs := validateSec_ok ops ps e hin hout
        constructor
        · constructor
          · rintro ⟨msg, hmsg⟩
            simp only [validate, hvs] at hmsg
            rcases hr : validate ops ps rest with msg2 | ds2
            · obtain ⟨e1, he1, hcache⟩ := ih1.1 ⟨msg2, hr⟩
              exact ⟨e1, List.mem_cons_of_mem e he1, hcache⟩
            · simp only [hr] at hmsg
              cases hmsg
          · rintro ⟨e1, he1, hcache⟩
            rcases List.mem_cons.1 he1 with he2 | he2
            · subst he2
              rcases hcache with hc | hc
              · exact absurd hc hin
              · exact absurd hc hout
            · obtain ⟨msg, hr⟩ := ih1.2 ⟨e1, he2, hcache⟩
              refine ⟨msg, ?_⟩
              simp only [validate, hvs, hr]
        · intro ds hds
          simp only [validate, hvs] at hds
          rcases hr : validate ops ps rest with msg2 | ds2
          · simp only [hr] at hds
            cases hds
          · simp only [hr, Except.ok.injEq] at hds
            rw [← hds, ih2 ds2 hr, List.filterMap_cons]
            by_cases hsz : ps.max_section_size < ops.nodesLen e.2
            · rw [if_pos hsz, if_pos hsz, List.singleton_append]
            · rw [if_neg hsz, if_neg hsz, List.nil_append]

/-- Witness for C5 at a one-entry map with empty caches. -/
theorem c5_validate_abort_witness :
    validate trivOps ⟨8⟩ [(([] : Pfx), ([] : Pfx))] = Except.ok [] ∧
    ([] : List Diag) = [(([] : Pfx), ([] : Pfx))].filterMap (fun e =>
      if (⟨8⟩ : Params).max_section_size < trivOps.nodesLen e.2 then
        some ⟨trivOps.pfxOf e.2, trivOps.nodesLen e.2,
          trivOps.countAdults ⟨8⟩ (pfxSplit (trivOps.pfxOf e.2)).1 e.2,
          trivOps.countAdults ⟨8⟩ (pfxSplit (trivOps.pfxOf e.2)).2 e.2⟩
      else none) :=
  ⟨rfl, (c5_validate_abort trivOps ⟨8⟩ [(([] : Pfx), ([] : Pfx))]).2 [] rfl⟩

/-- A component projection of the counter fold: folding the componentwise
addition accumulates each component independently. -/
theorem foldl_add_comp (f : TickStats → Nat)
    (hf : ∀ a b, f (TickStats.add a b) = f a + f b)
    (acc : TickStats) (l : List TickStats) :
    f (l.foldl TickStats.add acc) = f acc + (l.map f).sum := by
  induction l generalizing acc with
  | nil => simp
  | cons s l ih =>
    rw [List.foldl_cons, ih, hf, List.map_cons, List.sum_cons, Nat.add_assoc]

/-- C10.  Every read-only view of the network — `stats`,
`num_complete_sections`, `age_distribution`, `age_aggregator`,
`section_size_aggregator`, `prefix_len_aggregator` — and a non-aborting
`validate` call leave the whole network state (partition map, parameters
and durable statistics sink) exactly as before the call. -/
theorem c10_views_frame {S M : Type} (ops : SOps S M) (net : Network S) :
    (statsView net).2 = net ∧
    (numCompleteSections ops net).2 = net ∧
    (ageDistribution ops net).2 = net ∧
    (ageAggregator ops net).2 = net ∧
    (sectionSizeAggregator ops net).2 = net ∧
    (keyLenAggregator net).2 = net ∧
    (∀ ds net1, runValidate ops net = Except.ok (ds, net1) → net1 = net) := by
  refine ⟨rfl, rfl, rfl, rfl, rfl, rfl, ?_⟩
  intro ds net1 h
  simp only [runValidate] at h
  rcases hv : validate ops net.params net.sections with e | ds2
  · simp only [hv] at h
    cases h
  · simp only [hv, Except.ok.injEq, Prod.mk.injEq] at h
    exact h.2.symm

/-- Witness for C10: the non-aborting validator on the initial network
returns the network unchanged. -/
theorem c10_views_frame_witness :
    runValidate trivOps (netNew trivOps ⟨8⟩) =
      Except.ok ([], netNew trivOps ⟨8⟩) ∧
    netNew trivOps ⟨8⟩ = netNew trivOps ⟨8⟩ :=
  ⟨rfl, (c10_views_frame trivOps (netNew trivOps ⟨8⟩)).2.2.2.2.2.2 []
    (netNew trivOps ⟨8⟩) rfl⟩

/-- C8.  A `tick(iteration)` call that completes its fixpoint loop appends
exactly one record to the statistics sink — before the validate phase runs
— carrying the iteration id, the sum of node counts over the settled map,
the number of entries of the settled map, and counters equal to the
componentwise sums of the round statistics returned by every resolver call
of the tick (each zero when no resolver call was made). -/
theorem c8_single_record {S M : Type} (ops : SOps S M) (fuel iteration : Nat)
    (net net1 : Network S)
    (h : tickCore ops fuel iteration net = Except.ok net1) :
    ∃ secs rounds,
      fixLoop ops net.params fuel
        (net.sections.map (fun e => (e.1, ops.prepareSec e.2))) =
        Except.ok (secs, rounds) ∧
      net1.sections = secs ∧
      net1.params = net.params ∧
      net1.stats = net.stats ++
        [⟨iteration, (secs.map (fun e => ops.nodesLen e.2)).sum, secs.length,
          (rounds.map TickStats.merges).sum, (rounds.map TickStats.splits).sum,
          (rounds.map TickStats.relocations).sum,
          (rounds.map TickStats.rejections).sum⟩] ∧
      tick ops fuel iteration net =
        (match validate ops net1.params net1.sections with
         | Except.error e => Except.error e
         | Except.ok _ => Except.ok net1) := by
  have htick : tick ops fuel iteration net =
      (match validate ops net1.params net1.sections with
       | Except.error e => Except.error e
       | Except.ok _ => Except.ok net1) := by
    simp only [tick, h]
  simp only [tickCore] at h
  rcases h1 : fixLoop ops net.params fuel
      (net.sections.map (fun e => (e.1, ops.prepareSec e.2))) with e | res
  · simp only [h1] at h
    cases h
  · obtain ⟨secs, rounds⟩ := res
    simp only [h1, Except.ok.injEq] at h
    have hm : (TickStats.sumL rounds).merges = (rounds.map TickStats.merges).sum := by
      have h2 := foldl_add_comp TickStats.merges (fun a b => rfl) TickStats.new rounds
      simpa [TickStats.sumL, TickStats.new] using h2
    have hs : (TickStats.sumL rounds).splits = (rounds.map TickStats.splits).sum := by
      have h2 := foldl_add_comp TickStats.splits (fun a b => rfl) TickStats.new rounds
      simpa [TickStats.sumL, TickStats.new] using h2
    have hr : (TickStats.sumL rounds).relocations =
        (rounds.map TickStats.relocations).sum := by
      have h2 := foldl_add_comp TickStats.relocations (fun a b => rfl) TickStats.new rounds
      simpa [TickStats.sumL, TickStats.new] using h2
    have hj : (TickStats.sumL rounds).rejections =
        (rounds.map TickStats.rejections).sum := by
      have h2 := foldl_add_comp TickStats.rejections (fun a b => rfl) TickStats.new rounds
      simpa [TickStats.sumL, TickStats.new] using h2
    refine ⟨secs, rounds, h1, ?_, ?_, ?_, htick⟩
    · rw [← h]
    · rw [← h]
    · rw [← h]
      simp only []
      rw [hm, hs, hr, hj]

/-- Witness for C8: one completed tick of the initial one-section network
with the trivial collaborator appends exactly the expected record. -/
theorem c8_single_record_witness :
    tickCore trivOps 1 0 (netNew trivOps ⟨8⟩) =
      Except.ok ⟨⟨8⟩, [⟨0, 0, 1, 0, 0, 0, 0⟩], [(([] : Pfx), ([] : Pfx))]⟩ ∧
    ∃ secs rounds,
      fixLoop trivOps (netNew trivOps ⟨8⟩).params 1
        ((netNew trivOps ⟨8⟩).sections.map (fun e => (e.1, trivOps.prepareSec e.2))) =
        Except.ok (secs, rounds) ∧
      (⟨⟨8⟩, [⟨0, 0, 1, 0, 0, 0, 0⟩],
        [(([] : Pfx), ([] : Pfx))]⟩ : Network Pfx).sections = secs ∧
      (⟨⟨8⟩, [⟨0, 0, 1, 0, 0, 0, 0⟩],
        [(([] : Pfx), ([] : Pfx))]⟩ : Network Pfx).params = (netNew trivOps ⟨8⟩).params ∧
      (⟨⟨8⟩, [⟨0, 0, 1, 0, 0, 0, 0⟩],
        [(([] : Pfx), ([] : Pfx))]⟩ : Network Pfx).stats = (netNew trivOps ⟨8⟩).stats ++
        [⟨0, (secs.map (fun e => trivOps.nodesLen e.2)).sum, secs.length,
          (rounds.map TickStats.merges).sum, (rounds.map TickStats.splits).sum,
          (rounds.map TickStats.relocations).sum,
          (rounds.map TickStats.rejections).sum⟩] ∧
      tick trivOps 1 0 (netNew trivOps ⟨8⟩) =
        (match validate trivOps
            (⟨⟨8⟩, [⟨0, 0, 1, 0, 0, 0, 0⟩],
              [(([] : Pfx), ([] : Pfx))]⟩ : Network Pfx).params
            (⟨⟨8⟩, [⟨0, 0, 1, 0, 0, 0, 0⟩],
              [(([] : Pfx), ([] : Pfx))]⟩ : Network Pfx).sections with
         | Except.error e => Except.error e
         | Except.ok _ => Except.ok ⟨⟨8⟩, [⟨0, 0, 1, 0, 0, 0, 0⟩],
             [(([] : Pfx), ([] : Pfx))]⟩) :=
  ⟨rfl, c8_single_record trivOps 1 0 (netNew trivOps ⟨8⟩) _ rfl⟩

end DSim
